import Mathlib

/-!
Verification of the DSMS stock-management frontend (stocksphere-navigator).

The TypeScript sources are shallowly embedded: JavaScript strings become
lists of characters, component state becomes explicit function arguments,
and network interactions become values describing the calls that would be
issued.  Every definition is translated from the corresponding function in
the repository; definitions whose name ends in `Spec` restate a sentence of
the specification for comparison with the code-derived definition.
-/

namespace SSN

/-! ## JavaScript string model -/

/-- JavaScript strings are modelled as lists of characters. -/
abbrev Str := List Char

/-- Convert a Lean string literal into the model. -/
def strOf (s : String) : Str := s.data

/-- The character class matched by the JavaScript regular expression `\s`
(WhiteSpace and LineTerminator code points). -/
def isJsWs (c : Char) : Bool :=
  decide (c.toNat = 9 ∨ c.toNat = 10 ∨ c.toNat = 11 ∨ c.toNat = 12 ∨ c.toNat = 13 ∨
    c.toNat = 32 ∨ c.toNat = 160 ∨ c.toNat = 5760 ∨
    (8192 ≤ c.toNat ∧ c.toNat ≤ 8202) ∨ c.toNat = 8232 ∨ c.toNat = 8233 ∨
    c.toNat = 8239 ∨ c.toNat = 8287 ∨ c.toNat = 12288 ∨ c.toNat = 65279)

/-- Single-character simple case map for `String.prototype.toUpperCase`
(ASCII letters only); the full conversion with multi-character expansions
such as U+00DF to SS is `jsUpperChar`/`toUpperCaseJs` below. -/
def toUpperChar (c : Char) : Char :=
  if 97 ≤ c.toNat ∧ c.toNat ≤ 122 then Char.ofNat (c.toNat - 32) else c

/-- Single-character simple case map for `String.prototype.toLowerCase`
(ASCII letters only); the full conversion is `jsLowerChar`/`toLowerCaseJs`
below. -/
def toLowerChar (c : Char) : Char :=
  if 65 ≤ c.toNat ∧ c.toNat ≤ 90 then Char.ofNat (c.toNat + 32) else c

/-- `value.toUpperCase()` -/
def toUpperStr (s : Str) : Str := s.map toUpperChar

/-- `value.toLowerCase()` -/
def toLowerStr (s : Str) : Str := s.map toLowerChar

/-- `value.trim()`: strip leading and trailing JavaScript white space. -/
def trimJs (s : Str) : Str := (s.dropWhile isJsWs).rdropWhile isJsWs

/-- State-passing loop for `value.replace(/\s+/g, " ")`: the flag records
whether the current maximal white-space run has already emitted its single
space. -/
def collapseWsGo : Bool → Str → Str
  | _, [] => []
  | inRun, c :: rest =>
    if isJsWs c then
      if inRun then collapseWsGo true rest else ' ' :: collapseWsGo true rest
    else c :: collapseWsGo false rest

/-- `value.replace(/\s+/g, " ")`: every maximal white-space run becomes a
single space. -/
def collapseWs (s : Str) : Str := collapseWsGo false s

/-- Accumulator loop for `value.split(" ")`. -/
def splitOnSpaceGo : Str → Str → List Str
  | [], acc => [acc.reverse]
  | c :: rest, acc =>
    if c = ' ' then acc.reverse :: splitOnSpaceGo rest []
    else splitOnSpaceGo rest (c :: acc)

/-- `value.split(" ")`: split on each single space character, keeping empty
pieces. -/
def splitOnSpace (s : Str) : List Str := splitOnSpaceGo s []

/-- `words.join(" ")` -/
def joinSpace : List Str → Str
  | [] => []
  | w :: ws =>
    match ws with
    | [] => w
    | _ :: _ => w ++ ' ' :: joinSpace ws

/-- One word mapped by `normalizeDisplayName`:
`word.length === 0 ? "" : word[0].toUpperCase() + word.slice(1).toLowerCase()`. -/
def titleCaseWord : Str → Str
  | [] => []
  | c :: rest => toUpperChar c :: rest.map toLowerChar

/-- `normalizeDisplayName` from ItemCategories.tsx, ItemLabelsPage.tsx,
CategoryImportPage and MachineryImport.tsx (all four copies are identical):
trim, collapse internal white space, then title-case each word. -/
def normalizeDisplayName (value : Str) : Str :=
  let collapsed := collapseWs (trimJs value)
  if collapsed = [] then []
  else joinSpace ((splitOnSpace collapsed).map titleCaseWord)

/-- `normalizeKey` from CategoryImportPage:
`value.trim().toLowerCase().replace(/\s+/g, " ")`. -/
def normalizeKey (value : Str) : Str := collapseWs (toLowerStr (trimJs value))

/-- ECMAScript full upper-case conversion of one code point, which can
expand to several characters: exact on the ASCII range and on U+00DF
(LATIN SMALL LETTER SHARP S, whose upper case is the two-letter string SS);
code points outside those are kept unchanged by this model. -/
def jsUpperChar (c : Char) : Str :=
  if c.toNat = 223 then ['S', 'S'] else [toUpperChar c]

/-- ECMAScript full lower-case conversion of one code point: exact on the
ASCII range and on U+0130 (LATIN CAPITAL LETTER I WITH DOT ABOVE, whose
lower case is i followed by U+0307); code points outside those are kept
unchanged by this model. -/
def jsLowerChar (c : Char) : Str :=
  if c.toNat = 304 then ['i', Char.ofNat 775] else [toLowerChar c]

/-- `value.toUpperCase()` with full (multi-character) case conversion. -/
def toUpperCaseJs (s : Str) : Str := s.flatMap jsUpperChar

/-- `value.toLowerCase()` with full (multi-character) case conversion. -/
def toLowerCaseJs (s : Str) : Str := s.flatMap jsLowerChar

/-- One word of `normalizeDisplayName` under full case conversion:
`word[0].toUpperCase() + word.slice(1).toLowerCase()` (exact for strings of
Basic-Multilingual-Plane code points, where `word[0]` is one code point). -/
def titleCaseWordJs : Str → Str
  | [] => []
  | c :: rest => jsUpperChar c ++ toLowerCaseJs rest

/-- `normalizeDisplayName` under ECMAScript full case conversion: this is
the behaviour of the shipped function on strings containing case-expanding
code points such as U+00DF. -/
def normalizeDisplayNameJs (value : Str) : Str :=
  let collapsed := collapseWs (trimJs value)
  if collapsed = [] then []
  else joinSpace ((splitOnSpace collapsed).map titleCaseWordJs)

/-! ## Category tree model (ItemCategories.tsx) -/

/-- The `ItemCategory` record exchanged with the backend. -/
structure ItemCategory where
  CategoryID : Int
  CategoryName : Str
  Description : Option Str
  ParentCategoryID : Option Int
  DisplayOrder : Int
  IsActive : Bool
deriving DecidableEq, Repr

/-- `MAX_DEPTH = 2`: zero-based depth ceiling (three visible levels). -/
def MAX_DEPTH : Nat := 2

/-- Code-point comparison standing in for `localeCompare` (ties in
`DisplayOrder` are broken by name). -/
def strLe : Str → Str → Bool
  | [], _ => true
  | _ :: _, [] => false
  | a :: as, b :: bs =>
    if a.toNat < b.toNat then true
    else if b.toNat < a.toNat then false
    else strLe as bs

/-- The sibling comparator used when building `childrenByParentId`:
ascending `DisplayOrder`, ties broken by category name. -/
def catLe (a b : ItemCategory) : Bool :=
  if a.DisplayOrder = b.DisplayOrder then strLe a.CategoryName b.CategoryName
  else decide (a.DisplayOrder ≤ b.DisplayOrder)

/-- One bucket of the `childrenByParentId` map: every category whose
`ParentCategoryID ?? null` equals the key, sorted stably by the sibling
comparator (`Array.prototype.sort` is stable; only membership and the
comparator matter to the properties proved below). -/
def childrenOf (cats : List ItemCategory) (p : Option Int) : List ItemCategory :=
  (cats.filter fun c => decide (c.ParentCategoryID = p)).insertionSort
    fun a b => catLe a b = true

/-- The ids of the children bucket of one category. -/
def childIdsOf (cats : List ItemCategory) (id : Int) : List Int :=
  (childrenOf cats (some id)).map fun c => c.CategoryID

/-- The recursive `visit` of `flatCategories`.  The fuel argument is a
modelling device only: the source recursion is bounded by the
`depth < MAX_DEPTH` guard, so with fuel `MAX_DEPTH + 1` the zero case is
never reached (depth grows by one per level). -/
def flatVisit (cats : List ItemCategory) : Nat → Option Int → Nat → List (ItemCategory × Nat)
  | 0, _, _ => []
  | fuel + 1, parent, depth =>
    (childrenOf cats parent).flatMap fun c =>
      (c, depth) ::
        (if depth < MAX_DEPTH then flatVisit cats fuel (some c.CategoryID) (depth + 1)
         else [])

/-- `flatCategories`: the tree flattened in display order, with the depth of
each visited node. -/
def flatCategories (cats : List ItemCategory) : List (ItemCategory × Nat) :=
  flatVisit cats (MAX_DEPTH + 1) none 0

/-- `depthById`: a map from id to depth built by iterating `flatCategories`;
a later `Map.set` for the same id wins. -/
def depthById (cats : List ItemCategory) (id : Int) : Option Nat :=
  (flatCategories cats).foldl
    (fun acc cd => if cd.1.CategoryID = id then some cd.2 else acc) none

/-- The loop body of `getDescendantIds`: an explicit stack (top element
first, so a JavaScript `push`/`pop` at the array end becomes cons at the
head) and the visited set in insertion order. -/
def getDescGo (cats : List ItemCategory) : List Int → List Int → List Int
  | [], result => result
  | current :: rest, result =>
    if current ∈ result then getDescGo cats rest result
    else getDescGo cats ((childIdsOf cats current).reverse ++ rest) (result ++ [current])
termination_by stack result =>
  ((((cats.map fun c => c.CategoryID).toFinset ∪ stack.toFinset) \ result.toFinset).card,
    stack.length)
decreasing_by
  · rename_i hmem
    have hEq : (((cats.map fun c => c.CategoryID).toFinset ∪ rest.toFinset) \ result.toFinset)
        = (((cats.map fun c => c.CategoryID).toFinset ∪ (current :: rest).toFinset) \
            result.toFinset) := by
      ext x
      simp only [Finset.mem_sdiff, Finset.mem_union, List.mem_toFinset, List.mem_cons]
      constructor
      · rintro ⟨h1, h2⟩
        exact ⟨h1.imp id Or.inr, h2⟩
      · rintro ⟨h1, h2⟩
        refine ⟨?_, h2⟩
        rcases h1 with h | h
        · exact Or.inl h
        · rcases h with rfl | h
          · exact absurd hmem h2
          · exact Or.inr h
    rw [hEq]
    exact Prod.Lex.right _ (by simp)
  · rename_i hmem
    apply Prod.Lex.left
    apply Finset.card_lt_card
    constructor
    · intro x hx
      simp only [Finset.mem_sdiff, Finset.mem_union, List.mem_toFinset, List.mem_map,
        List.mem_append, List.mem_reverse, List.mem_cons] at hx ⊢
      obtain ⟨hl, hr⟩ := hx
      have hxres : x ∉ result := fun hh => hr (Or.inl hh)
      refine ⟨?_, hxres⟩
      rcases hl with h | h
      · exact Or.inl h
      · rcases h with h | h
        · left
          simp only [childIdsOf, childrenOf, List.mem_map, List.mem_insertionSort,
            List.mem_filter] at h
          obtain ⟨c, ⟨hc, _⟩, rfl⟩ := h
          exact ⟨c, hc, rfl⟩
        · exact Or.inr (Or.inr h)
    · intro hsub
      have hcur : current ∈
          (((cats.map fun c => c.CategoryID).toFinset ∪ (current :: rest).toFinset) \
            result.toFinset) := by
        simp only [Finset.mem_sdiff, Finset.mem_union, List.mem_toFinset, List.mem_cons]
        exact ⟨Or.inr (Or.inl trivial), hmem⟩
      have := hsub hcur
      simp only [Finset.mem_sdiff, List.mem_toFinset, List.mem_append] at this
      exact this.2 (Or.inr (by simp))

/-- `getDescendantIds` from ItemCategories.tsx: iterative traversal with a
visited set, started from the selected category. -/
def getDescendantIds (cats : List ItemCategory) (rootId : Int) : List Int :=
  getDescGo cats [rootId] []

/-- `Set.add`: append only when absent. -/
def setAdd (l : List Int) (x : Int) : List Int := if x ∈ l then l else l ++ [x]

/-- `invalidParentIds`: descendant closure of the selected category plus the
category itself. -/
def invalidParentIds (cats : List ItemCategory) (selected : ItemCategory) : List Int :=
  setAdd (getDescendantIds cats selected.CategoryID) selected.CategoryID

/-- The filter applied to each bucket inside `renderParentCategoryMenu`:
drop invalid parents (self and descendants) and categories at the ceiling
depth. -/
def menuParentFilter (cats : List ItemCategory) (selected : ItemCategory)
    (c : ItemCategory) : Bool :=
  if c.CategoryID ∈ invalidParentIds cats selected then false
  else if MAX_DEPTH ≤ (depthById cats c.CategoryID).getD 0 then false
  else true

/-- The `hasChildren` test inside `renderParentCategoryMenu`. -/
def menuHasChildren (cats : List ItemCategory) (selected : ItemCategory)
    (c : ItemCategory) : Bool :=
  (childrenOf cats (some c.CategoryID)).any fun ch =>
    if ch.CategoryID ∈ invalidParentIds cats selected then false
    else decide ((depthById cats ch.CategoryID).getD 0 < MAX_DEPTH)

/-- The ids selectable from `renderParentCategoryMenu` (each rendered entry
carries one `setParentId(category.CategoryID)` item; submenus recurse).  The
fuel bounds the recursion of the embedded model; the exclusion theorems hold
for every fuel. -/
def renderParentCategoryMenuIds (cats : List ItemCategory) (selected : ItemCategory) :
    Nat → Option Int → List Int
  | 0, _ => []
  | fuel + 1, parentId =>
    ((childrenOf cats parentId).filter (menuParentFilter cats selected)).flatMap fun c =>
      if menuHasChildren cats selected c then
        c.CategoryID :: renderParentCategoryMenuIds cats selected fuel (some c.CategoryID)
      else [c.CategoryID]

/-- One network call issued by the categories page. -/
inductive ApiCall where
  | updateCategory (id : Int) (category_name : Str) (description : Option Str)
      (parent_category_id : Option Int)
  | createCategory (category_name : Str) (description : Option Str)
      (parent_category_id : Option Int) (display_order : Int) (is_active : Bool)
deriving DecidableEq, Repr

/-- `description: description || null` -/
def descOrNull (d : Str) : Option Str := if d = [] then none else some d

/-- Outcome of one run of `handleSave`. -/
structure SaveResult where
  calls : List ApiCall
  error : Option Str
  categoriesAfter : List ItemCategory
deriving DecidableEq, Repr

/-- The `depthOfNewParent` computation shared by both branches of
`handleSave`: `parentId == null ? -1 : depthById.get(parentId) ?? -1`. -/
def depthOfNewParent (cats : List ItemCategory) (parentId : Option Int) : Int :=
  match parentId with
  | none => -1
  | some p =>
    match depthById cats p with
    | none => -1
    | some d => (d : Int)

/-- `handleSave` from ItemCategories.tsx.  `serverCats` stands for the
canonical list a successful reload (`loadCategories`) would fetch; on the
client-side rejection path no call is issued and the list state is
untouched. -/
def handleSave (cats : List ItemCategory) (selectedCategory : Option ItemCategory)
    (name description : Str) (parentId : Option Int)
    (serverCats : List ItemCategory) : SaveResult :=
  if trimJs name = [] then ⟨[], none, cats⟩
  else
    match selectedCategory with
    | some sc =>
      if MAX_DEPTH ≤ depthOfNewParent cats parentId then
        ⟨[], some (strOf "Cannot nest deeper than 3 levels."), cats⟩
      else
        ⟨[ApiCall.updateCategory sc.CategoryID (trimJs name) (descOrNull description) parentId],
          none, serverCats⟩
    | none =>
      if MAX_DEPTH ≤ depthOfNewParent cats parentId then
        ⟨[], some (strOf "Cannot nest deeper than 3 levels."), cats⟩
      else
        let sibs := childrenOf cats parentId
        let finalDisplayOrder : Int :=
          match sibs.map (fun s => s.DisplayOrder) with
          | [] => 0
          | d :: ds => ds.foldl max d + 1
        ⟨[ApiCall.createCategory (trimJs name) (descOrNull description) parentId
            finalDisplayOrder true], none, serverCats⟩

/-- Parent/child edge of the flat category list: `child` is a category of
the list whose `ParentCategoryID` is `parent`. -/
def IsChildId (cats : List ItemCategory) (child parent : Int) : Prop :=
  ∃ c ∈ cats, c.CategoryID = child ∧ c.ParentCategoryID = some parent

/-- Proper descendant: transitive closure of the parent/child edge. -/
def IsDescendantId (cats : List ItemCategory) (d root : Int) : Prop :=
  Relation.TransGen (fun y x => IsChildId cats y x) d root

/-! ## Category import preview (CategoryImportPage in ItemCategories.tsx) -/

/-- Row status of an import preview row. -/
inductive RowStatus where
  | VALID
  | WARN
  | ERROR
deriving DecidableEq, Repr

/-- The raw column map of a category import row. -/
structure CatRawRow where
  category_name : Str
  parent_category : Str
  description : Str
  is_active : Str
deriving DecidableEq, Repr

/-- A `CategoryImportPreviewRow`. -/
structure CategoryImportPreviewRow where
  row_index : Int
  raw : CatRawRow
  status : RowStatus
  issues : List Str
  notes : List Str
deriving DecidableEq, Repr

/-- `existingCategoriesByKey`: lookup by normalized name; a later `Map.set`
for the same key wins. -/
def existingCategoriesByKey (existing : List ItemCategory) (key : Str) :
    Option ItemCategory :=
  existing.foldl
    (fun acc cat => if normalizeKey cat.CategoryName = key then some cat else acc) none

/-- `getCategoryDepth` from CategoryImportPage.  The source recursion follows
`ParentCategoryID` with no cycle guard; the fuel (called with
`existing.length`, enough for any acyclic parent chain) is a modelling
device for that unguarded recursion. -/
def getCategoryDepth (existing : List ItemCategory) : Nat → Int → Nat
  | 0, _ => 0
  | fuel + 1, categoryId =>
    match existing.find? (fun c => decide (c.CategoryID = categoryId)) with
    | none => 0
    | some cat =>
      match cat.ParentCategoryID with
      | none => 0
      | some p => getCategoryDepth existing fuel p + 1

/-- The apostrophe character used inside interpolated issue messages. -/
def squote : Char := Char.ofNat 39

/-- Issue and note texts of `recomputeRow`. -/
def missingCategoryNameMsg : Str := strOf "Missing category_name"

/-- Duplicate-in-file issue text. -/
def dupCategoryMsg : Str := strOf "Duplicate category_name within file (case-insensitive)"

/-- Already-exists note text. -/
def existsUpdateMsg : Str := strOf "Category already exists and will be updated on import"

/-- Parent-not-found note text. -/
def parentNotFoundMsg (parent : Str) : Str :=
  strOf "Parent category " ++ squote :: parent ++ squote ::
    strOf " was not found and will be created as a root category"

/-- Parent-at-ceiling issue text. -/
def parentMaxDepthMsg (parent : Str) (parentDepth : Nat) : Str :=
  strOf "Parent category " ++ squote :: parent ++ squote ::
    strOf " is at the maximum depth (level " ++ strOf (Nat.repr (parentDepth + 1)) ++
    strOf ") and cannot have children"

/-- Self-parent issue text. -/
def ownParentMsg : Str := strOf "Category cannot be its own parent"

/-- The blocking-issue test inside the status recomputation of
`recomputeRow`. -/
def isBlockingIssue (m : Str) : Bool :=
  (strOf "Missing").isPrefixOf m || (strOf "Invalid").isPrefixOf m ||
  (strOf "Nesting").isPrefixOf m ||
  decide (strOf "maximum depth" <:+: m) ||
  decide (strOf "cannot be its own parent" <:+: m)

/-- Status recomputation from the combined issues list. -/
def computeCatRowStatus (issues : List Str) : RowStatus :=
  if issues = [] then .VALID
  else if issues.any isBlockingIssue then .ERROR
  else .WARN

/-- `recomputeRow` from CategoryImportPage: re-validate the row at `index`
against the whole batch and the existing categories, write the normalized
raw values back, and recompute the status. -/
def recomputeRow (existing : List ItemCategory)
    (rows : List CategoryImportPreviewRow) (index : Nat) :
    List CategoryImportPreviewRow :=
  match rows[index]? with
  | none => rows
  | some row =>
    let name := normalizeDisplayName row.raw.category_name
    let parent := normalizeDisplayName row.raw.parent_category
    let desc := collapseWs (trimJs row.raw.description)
    let activeRaw := trimJs row.raw.is_active
    let nameKey := normalizeKey name
    let nameIssues : List Str :=
      if name = [] then [missingCategoryNameMsg]
      else if rows.enum.any
          (fun p => decide (p.1 ≠ index) && decide (normalizeKey p.2.raw.category_name = nameKey))
        then [dupCategoryMsg]
      else []
    let nameNotes : List Str :=
      if name ≠ [] ∧ (existingCategoriesByKey existing nameKey).isSome
        then [existsUpdateMsg]
      else []
    let parentChecks : List Str × List Str :=
      if parent = [] then ([], [])
      else
        let parentKey := normalizeKey parent
        match existingCategoriesByKey existing parentKey with
        | none => ([], [parentNotFoundMsg parent])
        | some parentCat =>
          let parentDepth := getCategoryDepth existing existing.length parentCat.CategoryID
          if 2 ≤ parentDepth then ([parentMaxDepthMsg parent parentDepth], [])
          else if name ≠ [] then
            match existingCategoriesByKey existing nameKey with
            | some existingCat =>
              if parentCat.CategoryID = existingCat.CategoryID then ([ownParentMsg], [])
              else ([], [])
            | none => ([], [])
          else ([], [])
    let issues := nameIssues ++ parentChecks.1
    let notes := nameNotes ++ parentChecks.2
    rows.set index
      { row with
        raw := { category_name := name, parent_category := parent,
                 description := desc, is_active := activeRaw },
        status := computeCatRowStatus issues,
        issues := issues,
        notes := notes }

/-- The normalization pass of `handlePreview`: `recomputeRow` applied to every
index in order. -/
def recomputeAllRows (existing : List ItemCategory)
    (rows : List CategoryImportPreviewRow) : List CategoryImportPreviewRow :=
  (List.range rows.length).foldl (fun acc i => recomputeRow existing acc i) rows

/-- `hasErrors` for the category import preview. -/
def catHasErrors (rows : List CategoryImportPreviewRow) : Bool :=
  rows.any fun r => decide (r.status = .ERROR)

/-- `hasWarnings` for the category import preview. -/
def catHasWarnings (rows : List CategoryImportPreviewRow) : Bool :=
  rows.any fun r => decide (r.status = .WARN)

/-- The guard at the top of the category-import `handleCommit`: true iff the
handler proceeds to send the commit request. -/
def catHandleCommitSends (rows : List CategoryImportPreviewRow) : Bool :=
  !(decide (rows.length = 0) || catHasErrors rows || catHasWarnings rows)

/-- The `disabled` predicate of the category-import commit button. -/
def catCommitButtonDisabled (importLoading : Bool)
    (rows : List CategoryImportPreviewRow) : Bool :=
  importLoading || catHasErrors rows || catHasWarnings rows || decide (rows.length = 0)

/-- A click on the category-import commit button issues a commit request iff
the button is enabled and the handler guard passes. -/
def catCommitClickSends (importLoading : Bool)
    (rows : List CategoryImportPreviewRow) : Bool :=
  !catCommitButtonDisabled importLoading rows && catHandleCommitSends rows

/-- The `disabled` predicate of the category-import per-row Remove button. -/
def catRemoveRowDisabled (rows : List CategoryImportPreviewRow) : Bool :=
  decide (rows.length ≤ 1)

/-- Effect of pressing Remove on row `index` of the category import preview:
a disabled button never fires, otherwise `current.filter((_, i) => i !== index)`. -/
def catRemoveRowPress (rows : List CategoryImportPreviewRow) (index : Nat) :
    List CategoryImportPreviewRow :=
  if catRemoveRowDisabled rows then rows else rows.eraseIdx index

/-! ## Machinery import preview (MachineryImport.tsx) -/

/-- The raw column map of a machinery import row. -/
structure MachRawRow where
  asset_tag : Str
  machine_name : Str
  machinery_type : Str
  location : Str
  status : Str
deriving DecidableEq, Repr

/-- The normalized column map of a machinery import row. -/
structure MachNormalizedRow where
  asset_tag : Str
  machinery_type : Str
deriving DecidableEq, Repr

/-- A `MachineryImportPreviewRow`. -/
structure MachineryImportPreviewRow where
  row_index : Int
  raw : MachRawRow
  normalized : MachNormalizedRow
  status : RowStatus
  issues : List Str
  notes : List Str
  auto_generated_asset_tag : Bool
  resolved_type_id : Option Int
deriving DecidableEq, Repr

/-- `hasErrors` for the machinery import preview. -/
def machHasErrors (rows : List MachineryImportPreviewRow) : Bool :=
  rows.any fun r => decide (r.status = .ERROR)

/-- `hasWarnings` for the machinery import preview. -/
def machHasWarnings (rows : List MachineryImportPreviewRow) : Bool :=
  rows.any fun r => decide (r.status = .WARN)

/-- The guard at the top of the machinery-import `handleCommit` (it does not
test `hasWarnings`): true iff the handler proceeds to send the commit
request. -/
def machHandleCommitSends (rows : List MachineryImportPreviewRow) : Bool :=
  !(decide (rows.length = 0) || machHasErrors rows)

/-- The `disabled` predicate of the machinery-import commit button (this one
does test `hasWarnings`). -/
def machCommitButtonDisabled (importLoading : Bool)
    (rows : List MachineryImportPreviewRow) : Bool :=
  importLoading || machHasErrors rows || machHasWarnings rows || decide (rows.length = 0)

/-- A click on the machinery-import commit button issues a commit request iff
the button is enabled and the handler guard passes. -/
def machCommitClickSends (importLoading : Bool)
    (rows : List MachineryImportPreviewRow) : Bool :=
  !machCommitButtonDisabled importLoading rows && machHandleCommitSends rows

/-- The `disabled` predicate of the machinery-import per-row Remove button. -/
def machRemoveRowDisabled (rows : List MachineryImportPreviewRow) : Bool :=
  decide (rows.length ≤ 1)

/-- The machinery Remove `onClick` handler body, including its own
`if (previewRows.length <= 1) return` guard. -/
def machRemoveRowClick (rows : List MachineryImportPreviewRow) (index : Nat) :
    List MachineryImportPreviewRow :=
  if rows.length ≤ 1 then rows else rows.eraseIdx index

/-- Effect of pressing Remove on row `index` of the machinery import preview:
a disabled button never fires, otherwise the `onClick` handler runs. -/
def machRemoveRowPress (rows : List MachineryImportPreviewRow) (index : Nat) :
    List MachineryImportPreviewRow :=
  if machRemoveRowDisabled rows then rows else machRemoveRowClick rows index

/-- The character class `[A-Z0-9]` kept by the type-code derivation. -/
def isUpperAlnum (c : Char) : Bool :=
  decide ((65 ≤ c.toNat ∧ c.toNat ≤ 90) ∨ (48 ≤ c.toNat ∧ c.toNat ≤ 57))

/-- ASCII digit test. -/
def isDigitChar (c : Char) : Bool := decide (48 ≤ c.toNat ∧ c.toNat ≤ 57)

/-- Leading-integer semantics of `parseInt(s, 10)`: skip white space, read an
optional sign and then the maximal digit prefix; `none` models `NaN`. -/
def parseIntJs (s : Str) : Option Int :=
  let t := s.dropWhile isJsWs
  let signAndRest : Int × Str :=
    match t with
    | '-' :: rest => (-1, rest)
    | '+' :: rest => (1, rest)
    | _ => (1, t)
  let digits := signAndRest.2.takeWhile isDigitChar
  if digits = [] then none
  else some (signAndRest.1 *
    digits.foldl (fun acc c => acc * 10 + ((c.toNat : Int) - 48)) 0)

/-- `String(n)` for the sequence number. -/
def intToStr (i : Int) : Str :=
  if i < 0 then '-' :: strOf (Nat.repr i.natAbs) else strOf (Nat.repr i.natAbs)

/-- `.padStart(3, "0")` -/
def padStart3Zero (s : Str) : Str :=
  if s.length < 3 then List.replicate (3 - s.length) '0' ++ s else s

/-- The type-code derivation inside `generateAssetTagForRow`: uppercase the
trimmed type name, take the first word (`split(/\s+/)[0]` of a trimmed
string), strip characters outside `[A-Z0-9]`, drop a single trailing S when
longer than one character, default `MCH`. -/
def deriveTypeCode (typeName : Str) : Str :=
  let cleaned := toUpperStr (trimJs typeName)
  if cleaned = [] then strOf "MCH"
  else
    let firstWord := cleaned.takeWhile fun c => !isJsWs c
    let letters := firstWord.filter isUpperAlnum
    let letters :=
      if letters.getLast? = some 'S' ∧ 1 < letters.length then letters.dropLast
      else letters
    if letters = [] then strOf "MCH" else letters

/-- The sequence numbers already used in the batch for one code prefix:
every trimmed upper-cased tag starting with `CODE-` whose suffix parses as a
number. -/
def batchTagNumbers (code : Str) (rows : List MachineryImportPreviewRow) : List Int :=
  rows.filterMap fun r =>
    let tag := toUpperStr (trimJs r.raw.asset_tag)
    if (code ++ ['-']).isPrefixOf tag then parseIntJs (tag.drop (code.length + 1))
    else none

/-- `existingNumbers.length === 0 ? 1 : Math.max(...existingNumbers) + 1` -/
def nextTagNumber (code : Str) (rows : List MachineryImportPreviewRow) : Int :=
  match batchTagNumbers code rows with
  | [] => 1
  | n :: ns => ns.foldl max n + 1

/-- `generateAssetTagForRow` from MachineryImport.tsx. -/
def generateAssetTagForRow (rows : List MachineryImportPreviewRow) (index : Nat) :
    List MachineryImportPreviewRow :=
  match rows[index]? with
  | none => rows
  | some row =>
    let currentTag := trimJs row.raw.asset_tag
    let isAuto := row.auto_generated_asset_tag || decide (currentTag = [])
    let typeName := row.raw.machinery_type
    if !isAuto || decide (trimJs typeName = []) then rows
    else
      let code := deriveTypeCode typeName
      let newTag := code ++ '-' :: padStart3Zero (intToStr (nextTagNumber code rows))
      let newRaw := { row.raw with asset_tag := newTag }
      rows.set index { row with raw := newRaw, auto_generated_asset_tag := true }

/-- Modelled from the spec sentence for the auto-tag code: the first word of
the type name, upper-cased, stripped of non-alphanumerics, with a single
trailing S removed when longer than one character, defaulting to `MCH` when
empty.  Spec-side counterpart of `deriveTypeCode`. -/
def specTypeCode (typeName : Str) : Str :=
  let firstWord := (trimJs typeName).takeWhile fun c => !isJsWs c
  let letters := (toUpperStr firstWord).filter isUpperAlnum
  let letters :=
    if letters.getLast? = some 'S' ∧ 1 < letters.length then letters.dropLast
    else letters
  if letters = [] then strOf "MCH" else letters

/-! ## Privilege model (AuthContext.tsx) -/

/-- A backend privilege as used by `hasPrivilege` (only `code` is read). -/
structure Privilege where
  code : String
deriving DecidableEq, Repr

/-- `UI_PRIVILEGE_MAP`: the fixed mapping from UI-level privilege flags to
backend privilege codes. -/
def UI_PRIVILEGE_MAP : List (String × List String) :=
  [("can_view_requests", ["REQUEST_VIEW_ALL", "REQUEST_VIEW_OWN"]),
   ("can_create_requests", ["REQUEST_CREATE"]),
   ("can_approve_requests", ["APPROVAL_APPROVE"]),
   ("can_fulfill_requests", ["FULFILLMENT_FULFILL"]),
   ("can_view_stock", ["STOCK_VIEW"]),
   ("can_adjust_stock", ["STOCK_ADJUST"]),
   ("can_view_machinery", ["MACHINERY_VIEW"]),
   ("can_manage_machinery", ["MACHINERY_MODIFY"]),
   ("can_view_items", ["ITEM_VIEW"]),
   ("can_manage_items", ["ITEM_CREATE", "ITEM_MODIFY", "ITEM_DELETE", "ITEM_CATEGORY_MANAGE"]),
   ("can_manage_users", ["USER_MODIFY", "USER_ASSIGN_ROLES"]),
   ("can_manage_roles", ["ROLE_MODIFY", "ROLE_ASSIGN_PRIVILEGES"]),
   ("can_view_activity_logs", ["ACTIVITY_LOG_VIEW"]),
   ("can_cleanup_activity_logs", ["ACTIVITY_LOG_CLEANUP"])]

/-- `UI_PRIVILEGE_MAP[uiPrivilege]` -/
def lookupUiPrivilege (flag : String) : Option (List String) :=
  (UI_PRIVILEGE_MAP.find? fun p => p.1 = flag).map fun p => p.2

/-- `hasPrivilege` from AuthContext.tsx. -/
def hasPrivilege (privileges : List Privilege) (uiPrivilege : String) : Bool :=
  match lookupUiPrivilege uiPrivilege with
  | none => false
  | some backendCodes =>
    if backendCodes = [] then false
    else privileges.any fun p => backendCodes.contains p.code

/-! ## HTTP layer (fetchWithAuth / refreshAccessToken in App.tsx) -/

/-- The in-memory token store (`tokenStore`; the localStorage copy is kept in
sync by `setTokens`/`getTokens`/`clearTokens`, so one pair models both). -/
structure TokenStore where
  accessToken : Option String
  refreshToken : Option String
deriving DecidableEq, Repr

/-- `clearTokens()` -/
def clearedTokens : TokenStore := ⟨none, none⟩

/-- A network response to the original endpoint: status, the JSON payload on
success, and the optional `detail` field of an error body (`none` models a
body whose JSON parse fails). -/
structure NetResponse where
  status : Nat
  body : Int
  detail : Option String
deriving DecidableEq, Repr

/-- Outcome of the refresh endpoint call inside `refreshAccessToken`. -/
inductive RefreshOutcome where
  | ok (access_token : String) (refresh_token : Option String)
  | httpError
  | netError
deriving DecidableEq, Repr

/-- The server environment: the response to the n-th request to the original
endpoint carrying a given bearer token, and the refresh endpoint. -/
structure HttpEnv where
  api : Nat → Option String → NetResponse
  refresh : String → RefreshOutcome

/-- One observable network interaction of a `fetchWithAuth` run. -/
inductive NetEvent where
  | apiRequest (token : Option String)
  | refreshRequest (refreshToken : String)
deriving DecidableEq, Repr

/-- The error thrown by the HTTP layer (`ApiError(status, message)`). -/
structure ApiErr where
  status : Nat
  message : String
deriving DecidableEq, Repr

/-- `refreshAccessToken` from App.tsx: no stored refresh token is a silent
failure; a non-ok response or a thrown fetch clears the tokens; success
stores the new pair (keeping the old refresh token when the body has none). -/
def refreshAccessToken (env : HttpEnv) (st : TokenStore) :
    Bool × TokenStore × List NetEvent :=
  match st.refreshToken with
  | none => (false, st, [])
  | some r =>
    match env.refresh r with
    | .ok a ro => (true, ⟨some a, some (ro.getD r)⟩, [.refreshRequest r])
    | .httpError => (false, clearedTokens, [.refreshRequest r])
    | .netError => (false, clearedTokens, [.refreshRequest r])

/-- `response.ok` -/
def respOk (r : NetResponse) : Bool := decide (200 ≤ r.status) && decide (r.status ≤ 299)

/-- `fetchWithAuth` from App.tsx.  `n` counts the requests already sent to
the endpoint in this run (0 on entry); the result is the value returned or
error thrown, the token store afterwards, and the network events in order.
`Except.ok none` models the `undefined` returned for a 204. -/
def fetchWithAuth (env : HttpEnv) : Bool → Nat → TokenStore →
    Except ApiErr (Option Int) × TokenStore × List NetEvent
  | retry, n, st =>
    let accessToken := st.accessToken
    let response := env.api n accessToken
    if h : response.status = 401 ∧ retry then
      match refreshAccessToken env st with
      | (true, st1, evs) =>
        let rec2 := fetchWithAuth env false (n + 1) st1
        (rec2.1, rec2.2.1, .apiRequest accessToken :: evs ++ rec2.2.2)
      | (false, st1, evs) =>
        (.error ⟨401, "Session expired. Please login again."⟩, st1,
          .apiRequest accessToken :: evs)
    else if !respOk response then
      (.error ⟨response.status, response.detail.getD "Request failed"⟩, st,
        [.apiRequest accessToken])
    else if response.status = 204 then
      (.ok none, st, [.apiRequest accessToken])
    else
      (.ok (some response.body), st, [.apiRequest accessToken])
termination_by retry _ _ => if retry then 1 else 0
decreasing_by
  simp [h.2]

/-! ## Concrete fixtures used by witnesses and counterexamples -/

/-- A four-node category tree: roots A; A ▸ B ▸ C and A ▸ D. -/
def exCats : List ItemCategory :=
  [⟨1, strOf "A", none, none, 0, true⟩,
   ⟨2, strOf "B", none, some 1, 0, true⟩,
   ⟨3, strOf "C", none, some 2, 0, true⟩,
   ⟨4, strOf "D", none, some 1, 1, true⟩]

/-- The category B of `exCats`, selected for editing. -/
def exSelected : ItemCategory := ⟨2, strOf "B", none, some 1, 0, true⟩

/-- A preview row whose only issue is the non-blocking duplicate note. -/
def exWarnCatRow : CategoryImportPreviewRow :=
  ⟨1, ⟨strOf "Bolts", [], [], []⟩, .WARN, [dupCategoryMsg], []⟩

/-- A machinery preview row in WARN state. -/
def exWarnMachRow : MachineryImportPreviewRow :=
  ⟨1, ⟨strOf "PUMP-001", strOf "Pump A", strOf "Pumps", [], strOf "OPERATIONAL"⟩,
    ⟨strOf "pump-001", strOf "pumps"⟩, .WARN, [], [], false, none⟩

/-- The duplicate-name scenario batch: `category_name` values Bolts and
`bolts ` (trailing space), as returned by the preview endpoint. -/
def exBoltsRows : List CategoryImportPreviewRow :=
  [⟨1, ⟨strOf "Bolts", [], [], []⟩, .VALID, [], []⟩,
   ⟨2, ⟨strOf "bolts ", [], [], []⟩, .VALID, [], []⟩]

/-- One machinery preview row with the given tag and type. -/
def exMachRow (i : Int) (tag ty : String) (auto : Bool) : MachineryImportPreviewRow :=
  ⟨i, ⟨strOf tag, strOf "Machine", strOf ty, [], strOf "OPERATIONAL"⟩,
    ⟨[], []⟩, .VALID, [], [], auto, none⟩

/-- Auto-tag scenario: a lone row of type Pumps with an empty tag. -/
def exPumpBatch1 : List MachineryImportPreviewRow := [exMachRow 1 "" "Pumps" false]

/-- Auto-tag scenario: tags PUMP-001 and PUMP-003 exist in the batch and the
third row (type Pumps, empty tag) is generated. -/
def exPumpBatch2 : List MachineryImportPreviewRow :=
  [exMachRow 1 "PUMP-001" "Crane" false,
   exMachRow 2 "PUMP-003" "Crane" false,
   exMachRow 3 "" "Pumps" false]

/-- A server that answers 401 to every request on the original endpoint and
answers the refresh call successfully with a new access token. -/
def envSecond401 : HttpEnv :=
  ⟨fun _ _ => ⟨401, 0, none⟩, fun _ => .ok "newAccess" none⟩

/-- A server whose original endpoint answers 401 for the stale token and 200
for the refreshed token, and whose refresh endpoint succeeds. -/
def envRefreshOk : HttpEnv :=
  ⟨fun _ tok => if tok = some "newAccess" then ⟨200, 7, none⟩ else ⟨401, 0, none⟩,
   fun _ => .ok "newAccess" none⟩

/-- A server that answers 401 and whose refresh endpoint fails with an HTTP
error. -/
def envRefreshFails : HttpEnv :=
  ⟨fun _ _ => ⟨401, 0, none⟩, fun _ => .httpError⟩

/-- The token store before the scenarios above. -/
def exTokens : TokenStore := ⟨some "staleAccess", some "refresh0"⟩

/-! ## C7: privilege flags -/

/-- C7: for every UI-level privilege flag present in the fixed mapping table
and every list of resolved backend privilege codes, `hasPrivilege` is true
iff the user's codes intersect the codes mapped to the flag. -/
theorem hasPrivilege_iff_intersects (privs : List Privilege) (flag : String)
    (codes : List String) (h : lookupUiPrivilege flag = some codes) :
    hasPrivilege privs flag = true ↔ ∃ p ∈ privs, p.code ∈ codes := by
  unfold hasPrivilege
  rw [h]
  by_cases hc : codes = []
  · subst hc
    simp
  · simp [hc, List.any_eq_true]

/-- C7 witness: a user whose only backend code is ITEM_VIEW passes
`can_view_items` and fails `can_manage_items`, by the mapping table. -/
theorem hasPrivilege_iff_intersects_witness :
    hasPrivilege [⟨"ITEM_VIEW"⟩] "can_view_items" = true ∧
    hasPrivilege [⟨"ITEM_VIEW"⟩] "can_manage_items" = false := by
  constructor
  · exact (hasPrivilege_iff_intersects [⟨"ITEM_VIEW"⟩] "can_view_items"
      ["ITEM_VIEW"] rfl).mpr ⟨⟨"ITEM_VIEW"⟩, by simp, by simp⟩
  · have h := hasPrivilege_iff_intersects [⟨"ITEM_VIEW"⟩] "can_manage_items"
      ["ITEM_CREATE", "ITEM_MODIFY", "ITEM_DELETE", "ITEM_CATEGORY_MANAGE"] rfl
    cases hEq : hasPrivilege [⟨"ITEM_VIEW"⟩] "can_manage_items"
    · rfl
    · obtain ⟨p, hp, hcode⟩ := h.mp hEq
      simp only [List.mem_singleton] at hp
      subst hp
      simp at hcode

/-! ## C9: preview-row removal -/

/-- C9 counterexample: with a single remaining machinery preview row, the
Remove button is disabled and its click handler leaves the row list
unchanged, so a machinery row can NOT be removed when it is the only
remaining row (contradicting the claim that only the category flow enforces
the minimum). -/
theorem machRemove_min_one_counterexample :
    machRemoveRowDisabled [exWarnMachRow] = true ∧
    machRemoveRowClick [exWarnMachRow] 0 = [exWarnMachRow] ∧
    machRemoveRowPress [exWarnMachRow] 0 = [exWarnMachRow] := by
  refine ⟨rfl, ?_, ?_⟩ <;> decide

/-- C9 amended: BOTH import flows enforce a minimum of one remaining preview
row: with at most one row left, the category Remove press is a no-op (the
button is disabled) and the machinery Remove button is disabled, its click
handler keeps the rows, and a press is a no-op. -/
theorem removeRow_min_one_both_flows (catRows : List CategoryImportPreviewRow)
    (machRows : List MachineryImportPreviewRow) (i j : Nat)
    (hc : catRows.length ≤ 1) (hm : machRows.length ≤ 1) :
    catRemoveRowPress catRows i = catRows ∧
    machRemoveRowDisabled machRows = true ∧
    machRemoveRowClick machRows j = machRows ∧
    machRemoveRowPress machRows j = machRows := by
  unfold catRemoveRowPress catRemoveRowDisabled machRemoveRowPress
    machRemoveRowDisabled machRemoveRowClick
  simp [hc, hm]

/-- C9 amended witness: the guards at one remaining row, on concrete
singleton batches. -/
theorem removeRow_min_one_both_flows_witness :
    catRemoveRowPress [exWarnCatRow] 0 = [exWarnCatRow] ∧
    machRemoveRowDisabled [exWarnMachRow] = true ∧
    machRemoveRowClick [exWarnMachRow] 0 = [exWarnMachRow] ∧
    machRemoveRowPress [exWarnMachRow] 0 = [exWarnMachRow] :=
  removeRow_min_one_both_flows [exWarnCatRow] [exWarnMachRow] 0 0
    (by decide) (by decide)

/-! ## C4: commit blocked while any row is blocking -/

/-- C4: neither import flow sends a commit request while any preview row has
status ERROR or WARN or the row set is empty: the category handler guard
refuses by itself, and a click on either commit button (button `disabled`
predicate plus handler guard) sends nothing. -/
theorem commit_blocked_on_blocking_rows (importLoading : Bool)
    (catRows : List CategoryImportPreviewRow)
    (machRows : List MachineryImportPreviewRow)
    (hcat : catRows = [] ∨ ∃ r ∈ catRows, r.status = .ERROR ∨ r.status = .WARN)
    (hmach : machRows = [] ∨ ∃ r ∈ machRows, r.status = .ERROR ∨ r.status = .WARN) :
    catHandleCommitSends catRows = false ∧
    catCommitClickSends importLoading catRows = false ∧
    machCommitClickSends importLoading machRows = false := by
  have hcatE : catRows = [] ∨ catHasErrors catRows = true ∨ catHasWarnings catRows = true := by
    rcases hcat with rfl | ⟨r, hr, h | h⟩
    · exact Or.inl rfl
    · exact Or.inr (Or.inl (List.any_eq_true.mpr ⟨r, hr, by simp [h]⟩))
    · exact Or.inr (Or.inr (List.any_eq_true.mpr ⟨r, hr, by simp [h]⟩))
  have hmachE : machRows = [] ∨ machHasErrors machRows = true ∨
      machHasWarnings machRows = true := by
    rcases hmach with rfl | ⟨r, hr, h | h⟩
    · exact Or.inl rfl
    · exact Or.inr (Or.inl (List.any_eq_true.mpr ⟨r, hr, by simp [h]⟩))
    · exact Or.inr (Or.inr (List.any_eq_true.mpr ⟨r, hr, by simp [h]⟩))
  have h1 : catHandleCommitSends catRows = false := by
    rcases hcatE with rfl | h | h
    · simp [catHandleCommitSends]
    · simp [catHandleCommitSends, h]
    · simp [catHandleCommitSends, h]
  have h2 : catCommitClickSends importLoading catRows = false := by
    simp [catCommitClickSends, h1]
  have h3 : machCommitClickSends importLoading machRows = false := by
    rcases hmachE with rfl | h | h
    · simp [machCommitClickSends, machCommitButtonDisabled]
    · simp [machCommitClickSends, machCommitButtonDisabled, h]
    · simp [machCommitClickSends, machCommitButtonDisabled, h]
  exact ⟨h1, h2, h3⟩

/-- C4 witness: one WARN row in each preview blocks both commits. -/
theorem commit_blocked_on_blocking_rows_witness :
    catHandleCommitSends [exWarnCatRow] = false ∧
    catCommitClickSends false [exWarnCatRow] = false ∧
    machCommitClickSends false [exWarnMachRow] = false :=
  commit_blocked_on_blocking_rows false [exWarnCatRow] [exWarnMachRow]
    (Or.inr ⟨exWarnCatRow, List.mem_singleton.mpr rfl, Or.inr rfl⟩)
    (Or.inr ⟨exWarnMachRow, List.mem_singleton.mpr rfl, Or.inr rfl⟩)

/-! ## C10 and C2: the descendant closure -/

/-- The visited set only grows during the traversal. -/
theorem getDescGo_mem_result (cats : List ItemCategory) (stack result : List Int) :
    ∀ x ∈ result, x ∈ getDescGo cats stack result := by
  induction stack, result using getDescGo.induct cats with
  | case1 result =>
    intro x hx
    simpa [getDescGo] using hx
  | case2 current rest result hmem ih =>
    intro x hx
    rw [getDescGo, if_pos hmem]
    exact ih x hx
  | case3 current rest result hmem ih =>
    intro x hx
    rw [getDescGo, if_neg hmem]
    exact ih x (List.mem_append_left _ hx)

/-- Every id on the stack ends up in the result. -/
theorem getDescGo_mem_stack (cats : List ItemCategory) (stack result : List Int) :
    ∀ x ∈ stack, x ∈ getDescGo cats stack result := by
  induction stack, result using getDescGo.induct cats with
  | case1 result =>
    intro x hx
    cases hx
  | case2 current rest result hmem ih =>
    intro x hx
    rw [getDescGo, if_pos hmem]
    rcases List.mem_cons.mp hx with rfl | hx
    · exact getDescGo_mem_result cats rest result x hmem
    · exact ih x hx
  | case3 current rest result hmem ih =>
    intro x hx
    rw [getDescGo, if_neg hmem]
    rcases List.mem_cons.mp hx with rfl | hx
    · exact getDescGo_mem_result cats _ _ x (List.mem_append_right _ (List.mem_singleton.mpr rfl))
    · exact ih x (List.mem_append_right _ hx)

/-- The visited set stays duplicate-free: an id is visited at most once. -/
theorem getDescGo_nodup (cats : List ItemCategory) (stack result : List Int)
    (h : result.Nodup) : (getDescGo cats stack result).Nodup := by
  induction stack, result using getDescGo.induct cats with
  | case1 result =>
    rw [getDescGo]
    exact h
  | case2 current rest result hmem ih =>
    rw [getDescGo, if_pos hmem]
    exact ih h
  | case3 current rest result hmem ih =>
    rw [getDescGo, if_neg hmem]
    refine ih ?_
    simp [List.nodup_append, h, hmem]

/-- Closure invariant: if every child of a visited id is visited or still on
the stack, then the final result is closed under the child relation. -/
theorem getDescGo_closed (cats : List ItemCategory) (stack result : List Int)
    (hinv : ∀ x ∈ result, ∀ y ∈ childIdsOf cats x, y ∈ result ∨ y ∈ stack) :
    ∀ x ∈ getDescGo cats stack result, ∀ y ∈ childIdsOf cats x,
      y ∈ getDescGo cats stack result := by
  induction stack, result using getDescGo.induct cats with
  | case1 result =>
    rw [getDescGo]
    intro x hx y hy
    rcases hinv x hx y hy with h | h
    · exact h
    · cases h
  | case2 current rest result hmem ih =>
    rw [getDescGo, if_pos hmem]
    refine ih ?_
    intro x hx y hy
    rcases hinv x hx y hy with h | h
    · exact Or.inl h
    · rcases List.mem_cons.mp h with rfl | h
      · exact Or.inl hmem
      · exact Or.inr h
  | case3 current rest result hmem ih =>
    rw [getDescGo, if_neg hmem]
    refine ih ?_
    intro x hx y hy
    rcases List.mem_append.mp hx with hx | hx
    · rcases hinv x hx y hy with h | h
      · exact Or.inl (List.mem_append_left _ h)
      · rcases List.mem_cons.mp h with rfl | h
        · exact Or.inl (List.mem_append_right _ (List.mem_singleton.mpr rfl))
        · exact Or.inr (List.mem_append_right _ h)
    · rcases List.mem_singleton.mp hx with rfl
      exact Or.inr (List.mem_append_left _ (List.mem_reverse.mpr hy))

/-- A parent/child edge of the flat list lands in the children bucket. -/
theorem childIdsOf_of_edge (cats : List ItemCategory) (y x : Int)
    (h : IsChildId cats y x) : y ∈ childIdsOf cats x := by
  obtain ⟨c, hc, hcid, hpar⟩ := h
  refine List.mem_map.mpr ⟨c, ?_, hcid⟩
  rw [childrenOf, List.mem_insertionSort]
  exact List.mem_filter.mpr ⟨hc, by simp [hpar]⟩

/-- C10: `getDescendantIds` is a total function on every flat category list
(including lists whose parent references form cycles or shared diamonds:
the definition above carries a termination proof for all inputs, mirroring
the visited-set guard); the result always contains the starting id, and the
visited set never holds an id twice. -/
theorem getDescendantIds_total (cats : List ItemCategory) (rootId : Int) :
    rootId ∈ getDescendantIds cats rootId ∧ (getDescendantIds cats rootId).Nodup :=
  ⟨getDescGo_mem_stack cats [rootId] [] rootId (List.mem_singleton.mpr rfl),
   getDescGo_nodup cats [rootId] [] List.nodup_nil⟩

/-- The descendant closure computed by `getDescendantIds` really contains
every descendant. -/
theorem mem_getDescendantIds_of_descendant (cats : List ItemCategory) (root d : Int)
    (h : IsDescendantId cats d root) : d ∈ getDescendantIds cats root := by
  have hroot : root ∈ getDescendantIds cats root := (getDescendantIds_total cats root).1
  have hclosed := getDescGo_closed cats [root] [] (by intro x hx; cases hx)
  induction h using Relation.TransGen.head_induction_on with
  | @base a hchild => exact hclosed root hroot a (childIdsOf_of_edge cats a root hchild)
  | @ih a c hchild htrans ihc => exact hclosed c ihc a (childIdsOf_of_edge cats a c hchild)

/-- Membership survives `Set.add`. -/
theorem mem_setAdd_of_mem (l : List Int) (a x : Int) (h : x ∈ l) : x ∈ setAdd l a := by
  unfold setAdd
  split
  · exact h
  · exact List.mem_append_left _ h

/-- Everything the parent menu renders passed the invalid-parents filter. -/
theorem renderMenu_not_invalid (cats : List ItemCategory) (selected : ItemCategory) :
    ∀ fuel parentId x, x ∈ renderParentCategoryMenuIds cats selected fuel parentId →
      x ∉ invalidParentIds cats selected := by
  intro fuel
  induction fuel with
  | zero => simp [renderParentCategoryMenuIds]
  | succ n ih =>
    intro parentId x hx
    simp only [renderParentCategoryMenuIds, List.mem_flatMap] at hx
    obtain ⟨c, hc, hx⟩ := hx
    have hfilter : menuParentFilter cats selected c = true := (List.mem_filter.mp hc).2
    have hcnot : c.CategoryID ∉ invalidParentIds cats selected := by
      intro hmem
      simp [menuParentFilter, hmem] at hfilter
    split at hx
    · rcases List.mem_cons.mp hx with rfl | hx
      · exact hcnot
      · exact ih (some c.CategoryID) x hx
    · rcases List.mem_singleton.mp hx with rfl
      exact hcnot

/-- C2: for a category selected for editing, the invalid-parent set contains
the category itself and every descendant under the parent/child relation,
and the parent-selection menu never offers anything in that set, so the
category can never be chosen as its own ancestor. -/
theorem invalidParents_closure_and_menu_exclusion (cats : List ItemCategory)
    (selected : ItemCategory) (d : Int)
    (h : d = selected.CategoryID ∨ IsDescendantId cats d selected.CategoryID) :
    d ∈ invalidParentIds cats selected ∧
    ∀ fuel parentId, d ∉ renderParentCategoryMenuIds cats selected fuel parentId := by
  have hmem : d ∈ invalidParentIds cats selected := by
    rcases h with rfl | h
    · exact mem_setAdd_of_mem _ _ _ (getDescendantIds_total cats _).1
    · exact mem_setAdd_of_mem _ _ _
        (mem_getDescendantIds_of_descendant cats selected.CategoryID d h)
  refine ⟨hmem, ?_⟩
  intro fuel parentId hrender
  exact renderMenu_not_invalid cats selected fuel parentId d hrender hmem

/-- C2 witness: in the concrete tree `exCats`, the grandchild 3 of the
selected category 2 is in the invalid set and absent from the rendered menu. -/
theorem invalidParents_closure_and_menu_exclusion_witness :
    (3 : Int) ∈ invalidParentIds exCats exSelected ∧
    (3 : Int) ∉ renderParentCategoryMenuIds exCats exSelected 3 none := by
  have h := invalidParents_closure_and_menu_exclusion exCats exSelected 3
    (Or.inr (Relation.TransGen.single ⟨⟨3, strOf "C", none, some 2, 0, true⟩,
      by decide, rfl, rfl⟩))
  exact ⟨h.1, h.2 3 none⟩

/-! ## Character-level facts about the case maps and the white-space class -/

/-- `Char.ofNat` below the surrogate range keeps the code point. -/
theorem toNat_ofNat_of_lt (n : Nat) (h : n < 55296) : (Char.ofNat n).toNat = n := by
  have hv : n.isValidChar := Or.inl h
  simp only [Char.ofNat, hv, dite_true, dif_pos]
  rfl

/-- Code point of the upper-cased character. -/
theorem toNat_toUpperChar (c : Char) :
    (toUpperChar c).toNat =
      if 97 ≤ c.toNat ∧ c.toNat ≤ 122 then c.toNat - 32 else c.toNat := by
  unfold toUpperChar
  by_cases h : 97 ≤ c.toNat ∧ c.toNat ≤ 122
  · rw [if_pos h, if_pos h]
    exact toNat_ofNat_of_lt _ (by omega)
  · rw [if_neg h, if_neg h]

/-- Code point of the lower-cased character. -/
theorem toNat_toLowerChar (c : Char) :
    (toLowerChar c).toNat =
      if 65 ≤ c.toNat ∧ c.toNat ≤ 90 then c.toNat + 32 else c.toNat := by
  unfold toLowerChar
  by_cases h : 65 ≤ c.toNat ∧ c.toNat ≤ 90
  · rw [if_pos h, if_pos h]
    exact toNat_ofNat_of_lt _ (by omega)
  · rw [if_neg h, if_neg h]

/-- No printable ASCII character is JavaScript white space. -/
theorem isJsWs_eq_false_of_range (c : Char) (h1 : 33 ≤ c.toNat) (h2 : c.toNat ≤ 126) :
    isJsWs c = false := by
  unfold isJsWs
  simp only [decide_eq_false_iff_not]
  omega

/-- A character outside the lower-case ASCII range is fixed by upper-casing. -/
theorem toUpperChar_eq_self (c : Char) (h : ¬(97 ≤ c.toNat ∧ c.toNat ≤ 122)) :
    toUpperChar c = c := by
  unfold toUpperChar
  rw [if_neg h]

/-- A character outside the upper-case ASCII range is fixed by lower-casing. -/
theorem toLowerChar_eq_self (c : Char) (h : ¬(65 ≤ c.toNat ∧ c.toNat ≤ 90)) :
    toLowerChar c = c := by
  unfold toLowerChar
  rw [if_neg h]

/-- Upper-casing does not change white-space-ness. -/
theorem isJsWs_toUpperChar (c : Char) : isJsWs (toUpperChar c) = isJsWs c := by
  by_cases h : 97 ≤ c.toNat ∧ c.toNat ≤ 122
  · have h1 : (toUpperChar c).toNat = c.toNat - 32 := by
      rw [toNat_toUpperChar, if_pos h]
    rw [isJsWs_eq_false_of_range (toUpperChar c) (by omega) (by omega),
      isJsWs_eq_false_of_range c (by omega) (by omega)]
  · rw [toUpperChar_eq_self c h]

/-- Lower-casing does not change white-space-ness. -/
theorem isJsWs_toLowerChar (c : Char) : isJsWs (toLowerChar c) = isJsWs c := by
  by_cases h : 65 ≤ c.toNat ∧ c.toNat ≤ 90
  · have h1 : (toLowerChar c).toNat = c.toNat + 32 := by
      rw [toNat_toLowerChar, if_pos h]
    rw [isJsWs_eq_false_of_range (toLowerChar c) (by omega) (by omega),
      isJsWs_eq_false_of_range c (by omega) (by omega)]
  · rw [toLowerChar_eq_self c h]

/-- Upper-casing is idempotent (per character). -/
theorem toUpperChar_toUpperChar (c : Char) :
    toUpperChar (toUpperChar c) = toUpperChar c := by
  by_cases h : 97 ≤ c.toNat ∧ c.toNat ≤ 122
  · have h1 : (toUpperChar c).toNat = c.toNat - 32 := by
      rw [toNat_toUpperChar, if_pos h]
    exact toUpperChar_eq_self _ (by rw [h1]; omega)
  · rw [toUpperChar_eq_self c h, toUpperChar_eq_self c h]

/-- Lower-casing is idempotent (per character). -/
theorem toLowerChar_toLowerChar (c : Char) :
    toLowerChar (toLowerChar c) = toLowerChar c := by
  by_cases h : 65 ≤ c.toNat ∧ c.toNat ≤ 90
  · have h1 : (toLowerChar c).toNat = c.toNat + 32 := by
      rw [toNat_toLowerChar, if_pos h]
    exact toLowerChar_eq_self _ (by rw [h1]; omega)
  · rw [toLowerChar_eq_self c h, toLowerChar_eq_self c h]

/-- Lower-casing cancels a preceding upper-casing. -/
theorem toLowerChar_toUpperChar (c : Char) :
    toLowerChar (toUpperChar c) = toLowerChar c := by
  by_cases h : 97 ≤ c.toNat ∧ c.toNat ≤ 122
  · have h1 : (toUpperChar c).toNat = c.toNat - 32 := by
      rw [toNat_toUpperChar, if_pos h]
    have h2 : toLowerChar (toUpperChar c) = Char.ofNat ((toUpperChar c).toNat + 32) := by
      unfold toLowerChar
      rw [if_pos (by rw [h1]; omega)]
    rw [h2, toLowerChar_eq_self c (by omega), h1]
    have h3 : c.toNat - 32 + 32 = c.toNat := by omega
    rw [h3, Char.ofNat_toNat]
  · rw [toUpperChar_eq_self c h]

/-! ## C1: handleSave depth ceiling -/

/-- C1: moving or creating a category under a parent whose computed depth is
at the ceiling makes `handleSave` raise the client-side nesting error,
perform no create or update call, and leave the category list untouched. -/
theorem handleSave_rejects_deep_parent (cats : List ItemCategory)
    (selectedCategory : Option ItemCategory) (name description : Str)
    (serverCats : List ItemCategory) (p : Int) (d : Nat)
    (hname : trimJs name ≠ [])
    (hd : depthById cats p = some d) (hge : MAX_DEPTH ≤ d) :
    handleSave cats selectedCategory name description (some p) serverCats =
      ⟨[], some (strOf "Cannot nest deeper than 3 levels."), cats⟩ := by
  have hdep : (MAX_DEPTH : Int) ≤ depthOfNewParent cats (some p) := by
    simp only [depthOfNewParent, hd]
    exact_mod_cast hge
  unfold handleSave
  rw [if_neg hname]
  cases selectedCategory <;> simp [hdep]

/-- C1 witness: in `exCats` the category 3 sits at depth 2, so saving with it
as the chosen parent is rejected with no call and an unchanged list. -/
theorem handleSave_rejects_deep_parent_witness :
    handleSave exCats (some exSelected) (strOf "B") [] (some 3) [] =
      ⟨[], some (strOf "Cannot nest deeper than 3 levels."), exCats⟩ :=
  handleSave_rejects_deep_parent exCats (some exSelected) (strOf "B") [] [] 3 2
    (by decide) (by decide) (by decide)

/-! ## C5: machinery auto-tag generation -/

/-- The source code derivation agrees with the spec wording (first word then
upper-case versus upper-case then first word commute, because upper-casing
preserves white-space-ness). -/
theorem deriveTypeCode_eq_spec (typeName : Str) :
    deriveTypeCode typeName = specTypeCode typeName := by
  unfold deriveTypeCode specTypeCode toUpperStr
  by_cases h : trimJs typeName = []
  · rw [h]
    simp
  · rw [if_neg (by simpa using h)]
    have hpred : ((fun c => !isJsWs c) ∘ toUpperChar) = fun c => !isJsWs c := by
      funext c
      simp [Function.comp, isJsWs_toUpperChar]
    rw [List.takeWhile_map, hpred]

/-- C5: for a row whose tag is auto-generated or empty and whose type name is
nonempty, the generated tag is `CODE-NNN`: `CODE` per the spec derivation
and `NNN` the next sequence number for that code within the batch,
zero-padded to three digits; only the edited row's tag changes. -/
theorem generateAssetTag_formats (rows : List MachineryImportPreviewRow)
    (index : Nat) (row : MachineryImportPreviewRow)
    (hrow : rows[index]? = some row)
    (hauto : row.auto_generated_asset_tag = true ∨ trimJs row.raw.asset_tag = [])
    (htype : trimJs row.raw.machinery_type ≠ []) :
    (generateAssetTagForRow rows index).map (fun r => r.raw.asset_tag) =
      (rows.map fun r => r.raw.asset_tag).set index
        (specTypeCode row.raw.machinery_type ++ '-' ::
          padStart3Zero (intToStr
            (nextTagNumber (specTypeCode row.raw.machinery_type) rows))) := by
  have hcode := deriveTypeCode_eq_spec row.raw.machinery_type
  have hAuto2 : (row.auto_generated_asset_tag || decide (trimJs row.raw.asset_tag = [])) = true := by
    rcases hauto with h | h <;> simp [h]
  simp only [generateAssetTagForRow, hrow]
  rw [if_neg (by simp [hAuto2, htype])]
  rw [List.map_set, hcode]

/-- C5 witness: type Pumps with no `PUMP-` tags in the batch generates
`PUMP-001`; with `PUMP-001` and `PUMP-003` present it generates `PUMP-004`. -/
theorem generateAssetTag_formats_witness :
    (generateAssetTagForRow exPumpBatch1 0).map (fun r => r.raw.asset_tag) =
      [strOf "PUMP-001"] ∧
    (generateAssetTagForRow exPumpBatch2 2).map (fun r => r.raw.asset_tag) =
      [strOf "PUMP-001", strOf "PUMP-003", strOf "PUMP-004"] := by
  constructor
  · rw [generateAssetTag_formats exPumpBatch1 0 (exMachRow 1 "" "Pumps" false)
      rfl (Or.inr rfl) (by decide)]
    decide
  · rw [generateAssetTag_formats exPumpBatch2 2 (exMachRow 3 "" "Pumps" false)
      rfl (Or.inr rfl) (by decide)]
    decide

/-! ## C6: the one-shot 401 → refresh → retry sequence -/

/-- A non-retrying run that meets a 401 throws the error body without any
refresh and without touching the token store. -/
theorem fetchWithAuth_false_401 (env : HttpEnv) (n : Nat) (st : TokenStore)
    (h : (env.api n st.accessToken).status = 401) :
    fetchWithAuth env false n st =
      (.error ⟨401, (env.api n st.accessToken).detail.getD "Request failed"⟩, st,
        [.apiRequest st.accessToken]) := by
  rw [fetchWithAuth]
  rw [dif_neg (by simp)]
  rw [if_pos (by simp [respOk, h])]
  simp [h]

/-- A non-retrying run that meets a 200 returns the payload without any
refresh and without touching the token store. -/
theorem fetchWithAuth_false_200 (env : HttpEnv) (n : Nat) (st : TokenStore)
    (h : (env.api n st.accessToken).status = 200) :
    fetchWithAuth env false n st =
      (.ok (some (env.api n st.accessToken).body), st, [.apiRequest st.accessToken]) := by
  rw [fetchWithAuth]
  rw [dif_neg (by simp)]
  rw [if_neg (by simp [respOk, h])]
  rw [if_neg (by simp [h])]

/-- C6 amended: a 401 on an authenticated request triggers exactly one
refresh and exactly one replay.  When the refresh succeeds and the replay
returns 200, the caller receives the original payload and never observes the
intermediate 401.  When the replay returns 401 again, the layer throws a 401
error after exactly those three network interactions and the refreshed
tokens stay stored — the session is NOT cleared on this path.  The session
is cleared only when the refresh attempt itself fails. -/
theorem fetchWithAuth_single_retry (env : HttpEnv) (n : Nat) (t0 r0 t1 : String)
    (ro : Option String) (h401 : (env.api n (some t0)).status = 401) :
    (env.refresh r0 = .ok t1 ro →
      ((env.api (n + 1) (some t1)).status = 200 →
        fetchWithAuth env true n ⟨some t0, some r0⟩ =
          (.ok (some (env.api (n + 1) (some t1)).body), ⟨some t1, some (ro.getD r0)⟩,
            [.apiRequest (some t0), .refreshRequest r0, .apiRequest (some t1)])) ∧
      ((env.api (n + 1) (some t1)).status = 401 →
        fetchWithAuth env true n ⟨some t0, some r0⟩ =
          (.error ⟨401, (env.api (n + 1) (some t1)).detail.getD "Request failed"⟩,
            ⟨some t1, some (ro.getD r0)⟩,
            [.apiRequest (some t0), .refreshRequest r0, .apiRequest (some t1)]))) ∧
    (env.refresh r0 = .httpError →
      fetchWithAuth env true n ⟨some t0, some r0⟩ =
        (.error ⟨401, "Session expired. Please login again."⟩, clearedTokens,
          [.apiRequest (some t0), .refreshRequest r0])) := by
  constructor
  · intro hr
    have hrefA : refreshAccessToken env ⟨some t0, some r0⟩ =
        (true, ⟨some t1, some (ro.getD r0)⟩, [.refreshRequest r0]) := by
      simp [refreshAccessToken, hr]
    constructor
    · intro h200
      rw [fetchWithAuth]
      rw [dif_pos ⟨h401, rfl⟩]
      rw [hrefA]
      dsimp only
      rw [fetchWithAuth_false_200 env (n + 1) ⟨some t1, some (ro.getD r0)⟩ h200]
      rfl
    · intro hsecond
      rw [fetchWithAuth]
      rw [dif_pos ⟨h401, rfl⟩]
      rw [hrefA]
      dsimp only
      rw [fetchWithAuth_false_401 env (n + 1) ⟨some t1, some (ro.getD r0)⟩ hsecond]
      rfl
  · intro hr
    have hrefA : refreshAccessToken env ⟨some t0, some r0⟩ =
        (false, clearedTokens, [.refreshRequest r0]) := by
      simp [refreshAccessToken, hr]
    rw [fetchWithAuth]
    rw [dif_pos ⟨h401, rfl⟩]
    rw [hrefA]

/-- C6 witness: with the concrete `envRefreshOk` server the full sequence is
one request, one refresh, one replay, and the caller receives the payload 7
with the refreshed tokens stored. -/
theorem fetchWithAuth_single_retry_witness :
    fetchWithAuth envRefreshOk true 0 exTokens =
      (.ok (some 7), ⟨some "newAccess", some "refresh0"⟩,
        [.apiRequest (some "staleAccess"), .refreshRequest "refresh0",
          .apiRequest (some "newAccess")]) := by
  have h := ((fetchWithAuth_single_retry envRefreshOk 0 "staleAccess" "refresh0"
    "newAccess" none (by decide)).1 rfl).1 (by decide)
  simpa [exTokens] using h

/-- C6 counterexample: with `envSecond401` (the replay also answers 401) the
run ends in a thrown 401 while the refreshed token pair is still stored —
the claim that the second 401 clears the stored tokens is false. -/
theorem fetchWithAuth_second401_keeps_tokens :
    (fetchWithAuth envSecond401 true 0 exTokens).1 = .error ⟨401, "Request failed"⟩ ∧
    (fetchWithAuth envSecond401 true 0 exTokens).2.1 =
      ⟨some "newAccess", some "refresh0"⟩ ∧
    (fetchWithAuth envSecond401 true 0 exTokens).2.1 ≠ clearedTokens := by
  have hstep : fetchWithAuth envSecond401 true 0 exTokens =
      (.error ⟨401, "Request failed"⟩, ⟨some "newAccess", some "refresh0"⟩,
        [.apiRequest (some "staleAccess"), .refreshRequest "refresh0",
          .apiRequest (some "newAccess")]) := by
    rw [fetchWithAuth]
    rw [dif_pos ⟨rfl, rfl⟩]
    have hrefA : refreshAccessToken envSecond401 exTokens =
        (true, ⟨some "newAccess", some "refresh0"⟩, [.refreshRequest "refresh0"]) := by
      simp [refreshAccessToken, envSecond401, exTokens]
    rw [hrefA]
    dsimp only
    rw [fetchWithAuth_false_401 envSecond401 1 ⟨some "newAccess", some "refresh0"⟩ rfl]
    simp [envSecond401, exTokens]
  rw [hstep]
  refine ⟨rfl, rfl, by simp [clearedTokens]⟩

/-! ## C8: idempotence of normalizeDisplayName -/

/-- The single space is white space. -/
theorem isJsWs_space : isJsWs ' ' = true := by decide

/-- A word without white space contains no space character. -/
theorem ne_space_of_not_ws {c : Char} (h : isJsWs c = false) : c ≠ ' ' := by
  intro hc
  subst hc
  simp [isJsWs_space] at h

/-- Dropping leading white space does nothing when the head is not white. -/
theorem dropWhile_isJsWs_eq_self (l : Str)
    (h : ∀ c, l.head? = some c → isJsWs c = false) : l.dropWhile isJsWs = l := by
  cases l with
  | nil => rfl
  | cons c t =>
    rw [List.dropWhile_cons_of_neg]
    simp [h c rfl]

/-- The head of the trimmed string is not white space. -/
theorem trimJs_head (s : Str) :
    ∀ c, (trimJs s).head? = some c → isJsWs c = false := by
  intro c hc
  unfold trimJs at hc
  obtain ⟨tail, htail⟩ := List.rdropWhile_prefix isJsWs (s.dropWhile isJsWs)
  have hhead : (s.dropWhile isJsWs).head? = some c := by
    rw [← htail]
    cases hrd : List.rdropWhile isJsWs (s.dropWhile isJsWs) with
    | nil => rw [hrd] at hc; cases hc
    | cons x xs =>
      rw [hrd] at hc
      cases hc
      simp
  cases hdw : s.dropWhile isJsWs with
  | nil => rw [hdw] at hhead; cases hhead
  | cons x xs =>
    rw [hdw] at hhead
    cases hhead
    have := List.dropWhile_get_zero_not isJsWs s (by rw [hdw]; simp)
    simpa [hdw] using this

/-- The last character of the trimmed string is not white space. -/
theorem trimJs_getLast (s : Str) :
    ∀ c, (trimJs s).getLast? = some c → isJsWs c = false := by
  intro c hc
  unfold trimJs at hc
  cases hrd : List.rdropWhile isJsWs (s.dropWhile isJsWs) with
  | nil => rw [hrd] at hc; cases hc
  | cons x xs =>
    have hne : List.rdropWhile isJsWs (s.dropWhile isJsWs) ≠ [] := by rw [hrd]; simp
    have hlast := List.rdropWhile_last_not isJsWs (s.dropWhile isJsWs) hne
    rw [List.getLast?_eq_getLast _ hne] at hc
    cases hc
    simpa using hlast

/-- Trimming a string whose ends are not white space does nothing. -/
theorem trimJs_eq_self (t : Str)
    (h1 : ∀ c, t.head? = some c → isJsWs c = false)
    (h2 : ∀ c, t.getLast? = some c → isJsWs c = false) : trimJs t = t := by
  unfold trimJs
  rw [dropWhile_isJsWs_eq_self t h1]
  rw [List.rdropWhile_eq_self_iff]
  intro hl
  have := h2 (t.getLast hl) (List.getLast?_eq_getLast t hl)
  simp [this]

/-- The collapse loop copies a white-space-free chunk verbatim. -/
theorem collapseWsGo_word (w r : Str) (hw : ∀ c ∈ w, isJsWs c = false) :
    collapseWsGo false (w ++ r) = w ++ collapseWsGo false r := by
  induction w with
  | nil => rfl
  | cons c t ih =>
    have hc := hw c (List.mem_cons_self _ _)
    have ih2 := ih fun x hx => hw x (List.mem_cons_of_mem _ hx)
    simp [collapseWsGo, hc, ih2]

/-- Inside a run, further white space is skipped. -/
theorem collapseWsGo_skip (u r : Str) (hu : ∀ c ∈ u, isJsWs c = true) :
    collapseWsGo true (u ++ r) = collapseWsGo true r := by
  induction u with
  | nil => rfl
  | cons c t ih =>
    have hc := hu c (List.mem_cons_self _ _)
    have ih2 := ih fun x hx => hu x (List.mem_cons_of_mem _ hx)
    simp [collapseWsGo, hc, ih2]

/-- The run flag is irrelevant when the next character is not white space. -/
theorem collapseWsGo_true_eq_false (r : Str)
    (h : ∀ c, r.head? = some c → isJsWs c = false) :
    collapseWsGo true r = collapseWsGo false r := by
  cases r with
  | nil => rfl
  | cons c t =>
    have hc := h c rfl
    simp [collapseWsGo, hc]

/-- The head of a `dropWhile` result fails the predicate. -/
theorem head_dropWhile_false (p : Char → Bool) (l : Str) (c : Char)
    (hc : (l.dropWhile p).head? = some c) : p c = false := by
  induction l with
  | nil => cases hc
  | cons x xs ih =>
    by_cases hx : p x = true
    · rw [List.dropWhile_cons_of_pos hx] at hc
      exact ih hc
    · rw [List.dropWhile_cons_of_neg hx] at hc
      injection hc with hc
      subst hc
      exact Bool.eq_false_iff.mpr hx

/-- The last element of an append with a nonempty right piece. -/
theorem getLast?_append_right (l₁ l₂ : Str) (h : l₂ ≠ []) :
    (l₁ ++ l₂).getLast? = l₂.getLast? := by
  rw [List.getLast?_append]
  cases hgl : l₂.getLast? with
  | none => exact absurd (List.getLast?_eq_none_iff.mp hgl) h
  | some z => rfl

/-- Collapsing a trimmed string yields space-separated, nonempty,
white-space-free words. -/
theorem clean_collapse : ∀ (n : Nat) (t : Str), t.length ≤ n →
    (∀ c, t.head? = some c → isJsWs c = false) →
    (∀ c, t.getLast? = some c → isJsWs c = false) →
    ∃ ws : List Str, collapseWsGo false t = joinSpace ws ∧
      (t ≠ [] → ws ≠ []) ∧
      ∀ w ∈ ws, w ≠ [] ∧ ∀ c ∈ w, isJsWs c = false := by
  intro n
  induction n with
  | zero =>
    intro t ht _ _
    have ht0 : t = [] := List.length_eq_zero.mp (Nat.le_zero.mp ht)
    subst ht0
    exact ⟨[], rfl, by simp, by simp⟩
  | succ n ih =>
    rintro (_ | ⟨c, rest⟩) ht h1 h2
    · exact ⟨[], rfl, by simp, by simp⟩
    · have hc : isJsWs c = false := h1 c rfl
      have hwww : ∀ x ∈ (c :: rest).takeWhile (fun y => !isJsWs y), isJsWs x = false := by
        intro x hx
        simpa using List.mem_takeWhile_imp hx
      have hsplit := List.takeWhile_append_dropWhile (fun y => !isJsWs y) (c :: rest)
      have hwne : (c :: rest).takeWhile (fun y => !isJsWs y) ≠ [] := by
        simp [List.takeWhile_cons, hc]
      have hcoll : collapseWsGo false (c :: rest) =
          (c :: rest).takeWhile (fun y => !isJsWs y) ++
            collapseWsGo false ((c :: rest).dropWhile (fun y => !isJsWs y)) := by
        conv_lhs => rw [← hsplit]
        exact collapseWsGo_word _ _ hwww
      cases hrc : (c :: rest).dropWhile (fun y => !isJsWs y) with
      | nil =>
        refine ⟨[(c :: rest).takeWhile (fun y => !isJsWs y)], ?_, fun _ => by simp, ?_⟩
        · rw [hcoll, hrc]
          show _ ++ collapseWsGo false [] = joinSpace _
          simp [collapseWsGo, joinSpace]
        · intro w hw
          rw [List.mem_singleton] at hw
          subst hw
          exact ⟨hwne, hwww⟩
      | cons x r1 =>
        have hxws : isJsWs x = true := by
          have := head_dropWhile_false (fun y => !isJsWs y) (c :: rest) x
            (by rw [hrc]; rfl)
          simpa using this
        have hr1split := List.takeWhile_append_dropWhile isJsWs r1
        have huws : ∀ y ∈ r1.takeWhile isJsWs, isJsWs y = true :=
          fun y hy => List.mem_takeWhile_imp hy
        have hr2head : ∀ y, (r1.dropWhile isJsWs).head? = some y → isJsWs y = false :=
          fun y hy => head_dropWhile_false isJsWs r1 y hy
        have hlastt : (c :: rest).getLast? = (x :: r1).getLast? := by
          conv_lhs => rw [← hsplit, hrc]
          exact getLast?_append_right _ _ (by simp)
        have hr2ne : r1.dropWhile isJsWs ≠ [] := by
          intro h0
          have hallws : ∀ y ∈ (x :: r1), isJsWs y = true := by
            intro y hy
            rcases List.mem_cons.mp hy with rfl | hy
            · exact hxws
            · have hy2 : y ∈ List.takeWhile isJsWs r1 := by
                rw [← hr1split, h0, List.append_nil] at hy
                exact hy
              exact huws y hy2
          obtain ⟨e, he⟩ : ∃ e, (x :: r1).getLast? = some e := by
            cases hgl : (x :: r1).getLast? with
            | none => exact absurd (List.getLast?_eq_none_iff.mp hgl) (by simp)
            | some e => exact ⟨e, rfl⟩
          have hews : isJsWs e = false := by
            apply h2
            rw [hlastt, he]
          have := hallws e (List.mem_of_mem_getLast? (by rw [he]; rfl))
          rw [this] at hews
          cases hews
        have hr2last : ∀ y, (r1.dropWhile isJsWs).getLast? = some y → isJsWs y = false := by
          intro y hy
          apply h2
          rw [hlastt]
          have : (x :: r1) = (x :: r1.takeWhile isJsWs) ++ r1.dropWhile isJsWs := by
            simp [hr1split]
          rw [this, getLast?_append_right _ _ hr2ne, hy]
        have hlen : (r1.dropWhile isJsWs).length ≤ n := by
          have e1 := congrArg List.length hsplit
          have e2 := congrArg List.length hr1split
          rw [List.length_append] at e1 e2
          rw [hrc] at e1
          simp only [List.length_cons] at e1 ht ⊢
          have hw1 : 1 ≤ ((c :: rest).takeWhile (fun y => !isJsWs y)).length := by
            cases hq : (c :: rest).takeWhile (fun y => !isJsWs y) with
            | nil => exact absurd hq hwne
            | cons _ _ => simp
          omega
        obtain ⟨ws₂, hcol₂, hne₂, hclean₂⟩ :=
          ih (r1.dropWhile isJsWs) hlen hr2head hr2last
        have hws₂ne : ws₂ ≠ [] := hne₂ hr2ne
        refine ⟨(c :: rest).takeWhile (fun y => !isJsWs y) :: ws₂, ?_, fun _ => by simp, ?_⟩
        · have hstep : collapseWsGo false (x :: r1) =
              ' ' :: collapseWsGo false (r1.dropWhile isJsWs) := by
            show (if isJsWs x = true then
                if false = true then collapseWsGo true r1 else ' ' :: collapseWsGo true r1
              else x :: collapseWsGo false r1) = _
            rw [if_pos hxws, if_neg (by simp)]
            congr 1
            conv_lhs => rw [← hr1split]
            rw [collapseWsGo_skip _ _ huws]
            exact collapseWsGo_true_eq_false _ hr2head
          rw [hcoll, hrc, hstep, hcol₂]
          cases hws₂c : ws₂ with
          | nil => exact absurd hws₂c hws₂ne
          | cons a as => rfl
        · intro w hw
          rcases List.mem_cons.mp hw with rfl | hw
          · exact ⟨hwne, hwww⟩
          · exact hclean₂ w hw

/-- The split loop moves a space-free chunk into the accumulator. -/
theorem splitOnSpaceGo_append (w r acc : Str) (hw : ∀ c ∈ w, c ≠ ' ') :
    splitOnSpaceGo (w ++ r) acc = splitOnSpaceGo r (w.reverse ++ acc) := by
  induction w generalizing acc with
  | nil => simp
  | cons c t ih =>
    have hc : c ≠ ' ' := hw c (List.mem_cons_self _ _)
    show (if c = ' ' then _ else splitOnSpaceGo (t ++ r) (c :: acc)) = _
    rw [if_neg hc]
    rw [ih (c :: acc) fun x hx => hw x (List.mem_cons_of_mem _ hx)]
    simp

/-- Splitting on spaces inverts joining for nonempty space-free words. -/
theorem splitOnSpace_joinSpace (ws : List Str) (hne : ws ≠ [])
    (h : ∀ w ∈ ws, w ≠ [] ∧ ∀ c ∈ w, isJsWs c = false) :
    splitOnSpace (joinSpace ws) = ws := by
  induction ws with
  | nil => cases hne rfl
  | cons w ws ih =>
    have hwsp : ∀ c ∈ w, c ≠ ' ' :=
      fun c hc => ne_space_of_not_ws ((h w (List.mem_cons_self _ _)).2 c hc)
    cases ws with
    | nil =>
      show splitOnSpaceGo w [] = [w]
      have hx := splitOnSpaceGo_append w [] [] hwsp
      rw [List.append_nil] at hx
      rw [hx]
      simp [splitOnSpaceGo]
    | cons w2 ws2 =>
      show splitOnSpaceGo (w ++ ' ' :: joinSpace (w2 :: ws2)) [] = w :: w2 :: ws2
      rw [splitOnSpaceGo_append w _ [] hwsp]
      have hstep : splitOnSpaceGo (' ' :: joinSpace (w2 :: ws2)) (w.reverse ++ []) =
          (w.reverse ++ []).reverse :: splitOnSpaceGo (joinSpace (w2 :: ws2)) [] := by
        simp [splitOnSpaceGo]
      rw [hstep]
      have hih := ih (by simp) fun v hv => h v (List.mem_cons_of_mem _ hv)
      rw [show splitOnSpaceGo (joinSpace (w2 :: ws2)) [] = splitOnSpace (joinSpace (w2 :: ws2))
        from rfl, hih]
      simp

/-- Title-casing keeps a word nonempty. -/
theorem titleCaseWord_ne_nil (w : Str) (h : w ≠ []) : titleCaseWord w ≠ [] := by
  cases w with
  | nil => cases h rfl
  | cons c rest => simp [titleCaseWord]

/-- Title-casing keeps a word white-space-free. -/
theorem titleCaseWord_no_ws (w : Str) (h : ∀ c ∈ w, isJsWs c = false) :
    ∀ c ∈ titleCaseWord w, isJsWs c = false := by
  cases w with
  | nil => simp [titleCaseWord]
  | cons c rest =>
    intro d hd
    rcases List.mem_cons.mp hd with rfl | hd
    · rw [isJsWs_toUpperChar]
      exact h c (List.mem_cons_self _ _)
    · obtain ⟨e, he, rfl⟩ := List.mem_map.mp hd
      rw [isJsWs_toLowerChar]
      exact h e (List.mem_cons_of_mem _ he)

/-- Title-casing a word twice equals title-casing it once. -/
theorem titleCaseWord_idem (w : Str) :
    titleCaseWord (titleCaseWord w) = titleCaseWord w := by
  cases w with
  | nil => rfl
  | cons c rest =>
    show toUpperChar (toUpperChar c) :: (rest.map toLowerChar).map toLowerChar = _
    rw [toUpperChar_toUpperChar, List.map_map]
    have hLL : toLowerChar ∘ toLowerChar = toLowerChar := funext toLowerChar_toLowerChar
    rw [hLL]
    rfl

/-- A join of nonempty words is nonempty. -/
theorem joinSpace_ne_nil (ws : List Str) (hne : ws ≠ [])
    (h : ∀ w ∈ ws, w ≠ []) : joinSpace ws ≠ [] := by
  cases ws with
  | nil => cases hne rfl
  | cons w ws =>
    cases ws with
    | nil => exact h w (List.mem_cons_self _ _)
    | cons w2 ws2 =>
      show w ++ ' ' :: joinSpace (w2 :: ws2) ≠ []
      simp

/-- The first character of a join of clean words is not white space. -/
theorem joinSpace_head (ws : List Str)
    (h : ∀ w ∈ ws, w ≠ [] ∧ ∀ c ∈ w, isJsWs c = false) :
    ∀ c, (joinSpace ws).head? = some c → isJsWs c = false := by
  cases ws with
  | nil =>
    intro c hc
    cases hc
  | cons w ws =>
    intro c hc
    have hw := h w (List.mem_cons_self _ _)
    have hhead : (joinSpace (w :: ws)).head? = w.head? := by
      cases ws with
      | nil => rfl
      | cons w2 ws2 =>
        show (w ++ ' ' :: joinSpace (w2 :: ws2)).head? = w.head?
        rw [List.head?_append]
        cases hw0 : w.head? with
        | none => exact absurd (List.head?_eq_none_iff.mp hw0) hw.1
        | some z => rfl
    rw [hhead] at hc
    exact hw.2 c (List.mem_of_mem_head? (by rw [hc]; rfl))

/-- The last character of a join of clean words is not white space. -/
theorem joinSpace_getLast (ws : List Str)
    (h : ∀ w ∈ ws, w ≠ [] ∧ ∀ c ∈ w, isJsWs c = false) :
    ∀ c, (joinSpace ws).getLast? = some c → isJsWs c = false := by
  induction ws with
  | nil =>
    intro c hc
    cases hc
  | cons w ws ih =>
    intro c hc
    cases ws with
    | nil =>
      have hc' : w.getLast? = some c := hc
      exact (h w (List.mem_cons_self _ _)).2 c
        (List.mem_of_mem_getLast? (by rw [hc']; rfl))
    | cons w2 ws2 =>
      have hJne : joinSpace (w2 :: ws2) ≠ [] :=
        joinSpace_ne_nil _ (by simp)
          (fun v hv => (h v (List.mem_cons_of_mem _ hv)).1)
      have hstep : (joinSpace (w :: w2 :: ws2)).getLast? =
          (joinSpace (w2 :: ws2)).getLast? := by
        show (w ++ ' ' :: joinSpace (w2 :: ws2)).getLast? = _
        rw [getLast?_append_right _ _ (by simp),
          show (' ' :: joinSpace (w2 :: ws2)) = [' '] ++ joinSpace (w2 :: ws2) from rfl,
          getLast?_append_right _ _ hJne]
      rw [hstep] at hc
      exact ih (fun v hv => h v (List.mem_cons_of_mem _ hv)) c hc

/-- Collapsing a join of clean words does nothing. -/
theorem collapseWs_joinSpace (ws : List Str)
    (h : ∀ w ∈ ws, w ≠ [] ∧ ∀ c ∈ w, isJsWs c = false) :
    collapseWsGo false (joinSpace ws) = joinSpace ws := by
  induction ws with
  | nil => rfl
  | cons w ws ih =>
    cases ws with
    | nil =>
      have hx := collapseWsGo_word w [] (h w (List.mem_cons_self _ _)).2
      rw [List.append_nil] at hx
      show collapseWsGo false w = w
      rw [hx]
      show w ++ collapseWsGo false [] = w
      simp [collapseWsGo]
    | cons w2 ws2 =>
      show collapseWsGo false (w ++ ' ' :: joinSpace (w2 :: ws2)) = _
      rw [collapseWsGo_word w _ (h w (List.mem_cons_self _ _)).2]
      congr 1
      show (if isJsWs ' ' = true then
          if false = true then collapseWsGo true (joinSpace (w2 :: ws2))
          else ' ' :: collapseWsGo true (joinSpace (w2 :: ws2))
        else ' ' :: collapseWsGo false (joinSpace (w2 :: ws2))) = _
      rw [if_pos isJsWs_space, if_neg (by simp)]
      congr 1
      rw [collapseWsGo_true_eq_false _
        (joinSpace_head (w2 :: ws2) fun v hv => h v (List.mem_cons_of_mem _ hv))]
      exact ih fun v hv => h v (List.mem_cons_of_mem _ hv)

/-- Under the single-character simple case maps, `normalizeDisplayName`
(trim, collapse internal white space, title-case each word) is idempotent
on every string.  Used below for the amended idempotence statement about
the full-case-conversion function. -/
theorem normalizeDisplayName_idem (s : Str) :
    normalizeDisplayName (normalizeDisplayName s) = normalizeDisplayName s := by
  obtain ⟨ws, hcol, hne, hclean⟩ := clean_collapse (trimJs s).length (trimJs s) le_rfl
    (trimJs_head s) (trimJs_getLast s)
  have hcolA : collapseWs (trimJs s) = joinSpace ws := hcol
  by_cases hcase : collapseWs (trimJs s) = []
  · have h1 : normalizeDisplayName s = [] := by
      unfold normalizeDisplayName
      rw [if_pos hcase]
    rw [h1]
    rfl
  · have hwsne : ws ≠ [] := by
      intro h0
      subst h0
      exact hcase hcolA
    have hn1 : normalizeDisplayName s = joinSpace (ws.map titleCaseWord) := by
      unfold normalizeDisplayName
      rw [if_neg hcase, hcolA, splitOnSpace_joinSpace ws hwsne hclean]
    have hclean' : ∀ w ∈ ws.map titleCaseWord, w ≠ [] ∧ ∀ c ∈ w, isJsWs c = false := by
      intro w hw
      obtain ⟨v, hv, rfl⟩ := List.mem_map.mp hw
      exact ⟨titleCaseWord_ne_nil v (hclean v hv).1, titleCaseWord_no_ws v (hclean v hv).2⟩
    have hmapne : ws.map titleCaseWord ≠ [] := by simpa using hwsne
    have htrim : trimJs (joinSpace (ws.map titleCaseWord)) =
        joinSpace (ws.map titleCaseWord) :=
      trimJs_eq_self _ (joinSpace_head _ hclean') (joinSpace_getLast _ hclean')
    have hcol2 : collapseWs (trimJs (joinSpace (ws.map titleCaseWord))) =
        joinSpace (ws.map titleCaseWord) := by
      rw [htrim]
      exact collapseWs_joinSpace _ hclean'
    have hJne : joinSpace (ws.map titleCaseWord) ≠ [] :=
      joinSpace_ne_nil _ hmapne fun w hw => (hclean' w hw).1
    rw [hn1]
    unfold normalizeDisplayName
    rw [hcol2, if_neg hJne, splitOnSpace_joinSpace _ hmapne hclean', List.map_map]
    have hTT : titleCaseWord ∘ titleCaseWord = titleCaseWord := funext titleCaseWord_idem
    rw [hTT]

/-! ## C3: duplicate names in the category import preview -/

/-- Lower-casing fixes the space separator. -/
theorem toLowerChar_space : toLowerChar ' ' = ' ' := by decide

/-- The collapse loop commutes with lower-casing. -/
theorem collapseWsGo_map_lower (flag : Bool) (s : Str) :
    collapseWsGo flag (s.map toLowerChar) = (collapseWsGo flag s).map toLowerChar := by
  induction s generalizing flag with
  | nil => rfl
  | cons c t ih =>
    have hlc : isJsWs (toLowerChar c) = isJsWs c := isJsWs_toLowerChar c
    by_cases hc : isJsWs c = true <;>
      cases flag <;>
        simp [collapseWsGo, hlc, hc, toLowerChar_space, ih]

/-- `normalizeKey` is collapse-then-trim with a final character-wise
lower-casing. -/
theorem normalizeKey_eq_map_lower (x : Str) :
    normalizeKey x = (collapseWsGo false (trimJs x)).map toLowerChar :=
  collapseWsGo_map_lower false (trimJs x)

/-- Lower-casing distributes over the space join. -/
theorem joinSpace_map_lower (ws : List Str) :
    (joinSpace ws).map toLowerChar = joinSpace (ws.map fun w => w.map toLowerChar) := by
  induction ws with
  | nil => rfl
  | cons w ws ih =>
    cases ws with
    | nil => rfl
    | cons w2 ws2 =>
      show (w ++ ' ' :: joinSpace (w2 :: ws2)).map toLowerChar = _
      rw [List.map_append, List.map_cons, toLowerChar_space, ih]
      rfl

/-- Lower-casing erases title-casing. -/
theorem map_lower_titleCaseWord (w : Str) :
    (titleCaseWord w).map toLowerChar = w.map toLowerChar := by
  cases w with
  | nil => rfl
  | cons c rest =>
    show toLowerChar (toUpperChar c) :: (rest.map toLowerChar).map toLowerChar = _
    rw [toLowerChar_toUpperChar, List.map_map,
      show toLowerChar ∘ toLowerChar = toLowerChar from funext toLowerChar_toLowerChar]
    rfl

/-- Display-name normalization does not change the case-insensitive
comparison key used for duplicate detection. -/
theorem normalizeKey_normalizeDisplayName (s : Str) :
    normalizeKey (normalizeDisplayName s) = normalizeKey s := by
  rw [normalizeKey_eq_map_lower, normalizeKey_eq_map_lower]
  obtain ⟨ws, hcol, hne, hclean⟩ := clean_collapse (trimJs s).length (trimJs s) le_rfl
    (trimJs_head s) (trimJs_getLast s)
  by_cases hcase : collapseWs (trimJs s) = []
  · have hcaseGo : collapseWsGo false (trimJs s) = [] := hcase
    have h1 : normalizeDisplayName s = [] := by
      unfold normalizeDisplayName
      rw [if_pos hcase]
    rw [h1, hcaseGo]
    rfl
  · have hwsne : ws ≠ [] := by
      intro h0
      subst h0
      exact hcase hcol
    have hn1 : normalizeDisplayName s = joinSpace (ws.map titleCaseWord) := by
      unfold normalizeDisplayName
      rw [if_neg hcase,
        show collapseWs (trimJs s) = joinSpace ws from hcol,
        splitOnSpace_joinSpace ws hwsne hclean]
    have hclean' : ∀ w ∈ ws.map titleCaseWord, w ≠ [] ∧ ∀ c ∈ w, isJsWs c = false := by
      intro w hw
      obtain ⟨v, hv, rfl⟩ := List.mem_map.mp hw
      exact ⟨titleCaseWord_ne_nil v (hclean v hv).1, titleCaseWord_no_ws v (hclean v hv).2⟩
    have htrim : trimJs (joinSpace (ws.map titleCaseWord)) =
        joinSpace (ws.map titleCaseWord) :=
      trimJs_eq_self _ (joinSpace_head _ hclean') (joinSpace_getLast _ hclean')
    rw [hn1, htrim, collapseWs_joinSpace _ hclean', hcol,
      joinSpace_map_lower, joinSpace_map_lower, List.map_map,
      show (fun w => List.map toLowerChar w) ∘ titleCaseWord =
        fun w => List.map toLowerChar w from funext map_lower_titleCaseWord]

/-- C3 counterexample: re-validating the batch with `category_name` values
Bolts and `bolts ` flags both rows with the duplicate-in-file issue, but
their status is WARN, not ERROR as the claim states (WARN still blocks the
category commit). -/
theorem duplicate_rows_warn_counterexample :
    (recomputeAllRows [] exBoltsRows).map (fun r => r.status) =
      [RowStatus.WARN, RowStatus.WARN] ∧
    (∀ r ∈ recomputeAllRows [] exBoltsRows, dupCategoryMsg ∈ r.issues) ∧
    ¬ ∀ r ∈ recomputeAllRows [] exBoltsRows, r.status = RowStatus.ERROR := by
  refine ⟨by decide, by decide, by decide⟩

/-- C3 amended: for every pair of distinct preview rows whose
`category_name` values are equal and nonempty after normalization (trim,
collapse, case-insensitive), re-validating such a row (here with no parent
entry, as in the scenario) flags it with the duplicate-in-file issue and
sets its status to WARN — not ERROR; WARN still blocks the category-import
commit. -/
theorem recomputeRow_duplicate_is_warn (existing : List ItemCategory)
    (rows : List CategoryImportPreviewRow) (i j : Nat)
    (rowi rowj : CategoryImportPreviewRow)
    (hi : rows[i]? = some rowi) (hj : rows[j]? = some rowj) (hij : j ≠ i)
    (hkey : normalizeKey rowi.raw.category_name = normalizeKey rowj.raw.category_name)
    (hne : normalizeDisplayName rowi.raw.category_name ≠ [])
    (hpar : normalizeDisplayName rowi.raw.parent_category = []) :
    ∃ upd, (recomputeRow existing rows i)[i]? = some upd ∧
      upd.issues = [dupCategoryMsg] ∧ upd.status = RowStatus.WARN := by
  have hkeyA : normalizeKey (normalizeDisplayName rowi.raw.category_name) =
      normalizeKey rowj.raw.category_name := by
    rw [normalizeKey_normalizeDisplayName]
    exact hkey
  have hdup : (rows.enum.any fun p => decide (p.1 ≠ i) &&
      decide (normalizeKey p.2.raw.category_name =
        normalizeKey (normalizeDisplayName rowi.raw.category_name))) = true := by
    refine List.any_eq_true.mpr ⟨(j, rowj), List.mk_mem_enum_iff_getElem?.mpr hj, ?_⟩
    simp [hij, hkeyA.symm]
  have hilen : i < rows.length := (List.getElem?_eq_some.mp hi).1
  refine ⟨{ rowi with
      raw := { category_name := normalizeDisplayName rowi.raw.category_name,
               parent_category := normalizeDisplayName rowi.raw.parent_category,
               description := collapseWs (trimJs rowi.raw.description),
               is_active := trimJs rowi.raw.is_active },
      status := computeCatRowStatus [dupCategoryMsg],
      issues := [dupCategoryMsg],
      notes := if (existingCategoriesByKey existing
          (normalizeKey (normalizeDisplayName rowi.raw.category_name))).isSome
        then [existsUpdateMsg] else [] }, ?_, rfl,
    by show computeCatRowStatus [dupCategoryMsg] = RowStatus.WARN; decide⟩
  simp only [recomputeRow, hi]
  rw [List.getElem?_set_self (by simpa using hilen)]
  congr 1
  rw [if_neg hne, if_pos hdup, hpar]
  simp [hne]

/-- C3 amended witness: re-validating the Bolts row of the concrete
duplicate batch yields exactly the duplicate issue and status WARN. -/
theorem recomputeRow_duplicate_is_warn_witness :
    ((recomputeRow [] exBoltsRows 0)[0]?.map fun r => (r.issues, r.status)) =
      some ([dupCategoryMsg], RowStatus.WARN) := by
  obtain ⟨upd, h1, h2, h3⟩ := recomputeRow_duplicate_is_warn [] exBoltsRows 0 1
    ⟨1, ⟨strOf "Bolts", [], [], []⟩, .VALID, [], []⟩
    ⟨2, ⟨strOf "bolts ", [], [], []⟩, .VALID, [], []⟩
    rfl rfl (by decide) (by decide) (by decide) (by decide)
  rw [h1]
  simp [h2, h3]

/-! ## C8 continued: full case conversion and the idempotence boundary -/

/-- On ASCII code points the full upper-case conversion is the simple map. -/
theorem jsUpperChar_ascii (c : Char) (h : c.toNat ≤ 127) :
    jsUpperChar c = [toUpperChar c] := by
  unfold jsUpperChar
  rw [if_neg (by omega)]

/-- On ASCII code points the full lower-case conversion is the simple map. -/
theorem jsLowerChar_ascii (c : Char) (h : c.toNat ≤ 127) :
    jsLowerChar c = [toLowerChar c] := by
  unfold jsLowerChar
  rw [if_neg (by omega)]

/-- On ASCII strings the full lower-case conversion is character-wise. -/
theorem toLowerCaseJs_ascii (s : Str) (h : ∀ c ∈ s, c.toNat ≤ 127) :
    toLowerCaseJs s = s.map toLowerChar := by
  induction s with
  | nil => rfl
  | cons c t ih =>
    show jsLowerChar c ++ toLowerCaseJs t = toLowerChar c :: t.map toLowerChar
    rw [jsLowerChar_ascii c (h c (List.mem_cons_self _ _)),
      ih fun x hx => h x (List.mem_cons_of_mem _ hx)]
    rfl

/-- On ASCII words the two title-case functions agree. -/
theorem titleCaseWordJs_ascii (w : Str) (h : ∀ c ∈ w, c.toNat ≤ 127) :
    titleCaseWordJs w = titleCaseWord w := by
  cases w with
  | nil => rfl
  | cons c rest =>
    show jsUpperChar c ++ toLowerCaseJs rest = toUpperChar c :: rest.map toLowerChar
    rw [jsUpperChar_ascii c (h c (List.mem_cons_self _ _)),
      toLowerCaseJs_ascii rest fun x hx => h x (List.mem_cons_of_mem _ hx)]
    rfl

/-- Trimming only removes characters. -/
theorem mem_trimJs (s : Str) (c : Char) (h : c ∈ trimJs s) : c ∈ s := by
  unfold trimJs at h
  have h1 : c ∈ s.dropWhile isJsWs := (List.rdropWhile_prefix isJsWs _).subset h
  exact (List.dropWhile_sublist isJsWs).subset h1

/-- Collapsing only introduces the space character. -/
theorem mem_collapseWsGo (flag : Bool) (t : Str) (c : Char)
    (h : c ∈ collapseWsGo flag t) : c = ' ' ∨ c ∈ t := by
  induction t generalizing flag with
  | nil => cases h
  | cons x rest ih =>
    by_cases hx : isJsWs x = true
    · cases flag
      · have h' : c ∈ (' ' :: collapseWsGo true rest) := by
          simpa [collapseWsGo, hx] using h
        rcases List.mem_cons.mp h' with rfl | h'
        · exact Or.inl rfl
        · rcases ih true h' with h2 | h2
          · exact Or.inl h2
          · exact Or.inr (List.mem_cons_of_mem _ h2)
      · have h' : c ∈ collapseWsGo true rest := by
          simpa [collapseWsGo, hx] using h
        rcases ih true h' with h2 | h2
        · exact Or.inl h2
        · exact Or.inr (List.mem_cons_of_mem _ h2)
    · have h' : c ∈ (x :: collapseWsGo false rest) := by
        simpa [collapseWsGo, hx] using h
      rcases List.mem_cons.mp h' with rfl | h'
      · exact Or.inr (List.mem_cons_self _ _)
      · rcases ih false h' with h2 | h2
        · exact Or.inl h2
        · exact Or.inr (List.mem_cons_of_mem _ h2)

/-- Splitting only redistributes characters of the input and accumulator. -/
theorem mem_splitOnSpaceGo (t : Str) : ∀ (acc w : Str) (c : Char),
    w ∈ splitOnSpaceGo t acc → c ∈ w → c ∈ t ∨ c ∈ acc := by
  induction t with
  | nil =>
    intro acc w c hw hc
    have hwe : w = acc.reverse := by simpa [splitOnSpaceGo] using hw
    subst hwe
    exact Or.inr (List.mem_reverse.mp hc)
  | cons x rest ih =>
    intro acc w c hw hc
    by_cases hx : x = ' '
    · subst hx
      have hw' : w ∈ (acc.reverse :: splitOnSpaceGo rest []) := by
        simpa [splitOnSpaceGo] using hw
      rcases List.mem_cons.mp hw' with rfl | hw'
      · exact Or.inr (List.mem_reverse.mp hc)
      · rcases ih [] w c hw' hc with h | h
        · exact Or.inl (List.mem_cons_of_mem _ h)
        · cases h
    · have hw' : w ∈ splitOnSpaceGo rest (x :: acc) := by
        simpa [splitOnSpaceGo, hx] using hw
      rcases ih (x :: acc) w c hw' hc with h | h
      · exact Or.inl (List.mem_cons_of_mem _ h)
      · rcases List.mem_cons.mp h with rfl | h
        · exact Or.inl (List.mem_cons_self _ _)
        · exact Or.inr h

/-- Joining only introduces the space character. -/
theorem mem_joinSpace (ws : List Str) (c : Char) (h : c ∈ joinSpace ws) :
    c = ' ' ∨ ∃ w ∈ ws, c ∈ w := by
  induction ws with
  | nil => cases h
  | cons w ws ih =>
    cases ws with
    | nil => exact Or.inr ⟨w, List.mem_cons_self _ _, h⟩
    | cons w2 ws2 =>
      have h' : c ∈ w ++ ' ' :: joinSpace (w2 :: ws2) := h
      rcases List.mem_append.mp h' with h1 | h1
      · exact Or.inr ⟨w, List.mem_cons_self _ _, h1⟩
      · rcases List.mem_cons.mp h1 with rfl | h1
        · exact Or.inl rfl
        · rcases ih h1 with h2 | ⟨v, hv, hcv⟩
          · exact Or.inl h2
          · exact Or.inr ⟨v, List.mem_cons_of_mem _ hv, hcv⟩

/-- The simple upper-case map keeps ASCII. -/
theorem toNat_toUpperChar_le (c : Char) (h : c.toNat ≤ 127) :
    (toUpperChar c).toNat ≤ 127 := by
  rw [toNat_toUpperChar]
  split <;> omega

/-- The simple lower-case map keeps ASCII. -/
theorem toNat_toLowerChar_le (c : Char) (h : c.toNat ≤ 127) :
    (toLowerChar c).toNat ≤ 127 := by
  rw [toNat_toLowerChar]
  split <;> omega

/-- Every character of a word of the collapsed trimmed input comes from the
input or is the space. -/
theorem word_char_ascii (s : Str) (h : ∀ c ∈ s, c.toNat ≤ 127)
    (w : Str) (hw : w ∈ splitOnSpace (collapseWs (trimJs s))) :
    ∀ c ∈ w, c.toNat ≤ 127 := by
  intro c hc
  rcases mem_splitOnSpaceGo _ [] w c hw hc with h1 | h1
  · rcases mem_collapseWsGo false _ c h1 with rfl | h1
    · decide
    · exact h c (mem_trimJs s c h1)
  · cases h1

/-- `normalizeDisplayName` maps ASCII strings to ASCII strings. -/
theorem normalizeDisplayName_ascii (s : Str) (h : ∀ c ∈ s, c.toNat ≤ 127) :
    ∀ c ∈ normalizeDisplayName s, c.toNat ≤ 127 := by
  intro c hc
  unfold normalizeDisplayName at hc
  by_cases hcase : collapseWs (trimJs s) = []
  · rw [if_pos hcase] at hc
    cases hc
  · rw [if_neg hcase] at hc
    rcases mem_joinSpace _ c hc with rfl | ⟨w, hw, hcw⟩
    · decide
    · obtain ⟨v, hv, rfl⟩ := List.mem_map.mp hw
      have hvchars := word_char_ascii s h v hv
      cases v with
      | nil => cases hcw
      | cons a rest =>
        rcases List.mem_cons.mp hcw with rfl | hcw
        · exact toNat_toUpperChar_le a (hvchars a (List.mem_cons_self _ _))
        · obtain ⟨e, he, rfl⟩ := List.mem_map.mp hcw
          exact toNat_toLowerChar_le e (hvchars e (List.mem_cons_of_mem _ he))

/-- On ASCII strings the full-case-conversion normalization agrees with the
simple-case-map normalization. -/
theorem normalizeDisplayNameJs_eq_ascii (s : Str) (h : ∀ c ∈ s, c.toNat ≤ 127) :
    normalizeDisplayNameJs s = normalizeDisplayName s := by
  unfold normalizeDisplayNameJs normalizeDisplayName
  by_cases hcase : collapseWs (trimJs s) = []
  · rw [if_pos hcase, if_pos hcase]
  · rw [if_neg hcase, if_neg hcase]
    congr 1
    apply List.map_congr_left
    intro w hw
    exact titleCaseWordJs_ascii w (word_char_ascii s h w hw)

/-- C8 counterexample: with ECMAScript full case conversion the shipped
`normalizeDisplayName` is NOT idempotent: sharp s normalizes to SS, whose
normalization is Ss. -/
theorem normalizeDisplayNameJs_not_idempotent :
    normalizeDisplayNameJs (strOf "ß") = strOf "SS" ∧
    normalizeDisplayNameJs (normalizeDisplayNameJs (strOf "ß")) = strOf "Ss" ∧
    normalizeDisplayNameJs (normalizeDisplayNameJs (strOf "ß")) ≠
      normalizeDisplayNameJs (strOf "ß") := by
  refine ⟨by decide, by decide, by decide⟩

/-- C8 amended: `normalizeDisplayName` is idempotent on every string whose
characters have single-character case mappings — in particular every ASCII
string; on case-expanding code points such as U+00DF the function is not
idempotent (SS renormalizes to Ss). -/
theorem normalizeDisplayNameJs_idem_ascii (s : Str)
    (h : ∀ c ∈ s, c.toNat ≤ 127) :
    normalizeDisplayNameJs (normalizeDisplayNameJs s) = normalizeDisplayNameJs s := by
  rw [normalizeDisplayNameJs_eq_ascii s h,
    normalizeDisplayNameJs_eq_ascii _ (normalizeDisplayName_ascii s h)]
  exact normalizeDisplayName_idem s

/-- C8 amended witness: idempotence on a concrete ASCII input. -/
theorem normalizeDisplayNameJs_idem_ascii_witness :
    normalizeDisplayNameJs (normalizeDisplayNameJs (strOf "  hello   wORLD ")) =
      normalizeDisplayNameJs (strOf "  hello   wORLD ") :=
  normalizeDisplayNameJs_idem_ascii (strOf "  hello   wORLD ") (by decide)

end SSN
